import Mathlib

/-!
Verification of the text-fitting and image-compression core of the
`imagebox` repository (`crates/core/src/textarea.rs`,
`crates/core/src/image_generator.rs`).

The Rust code is shallowly embedded: strings become `List Char`,
`f32` metric arithmetic becomes exact `ℚ` arithmetic with explicit
ceiling rounding (matching the `.ceil() as i32` casts of the source),
`u32`/`i32` become `ℕ`/`ℤ`, and external library calls
(PNG encoding, Lanczos resampling, glyph rasterisation, file I/O)
become oracle parameters of the functions that invoke them.
-/

namespace Imagebox

/-! ## Font model

`ab_glyph::FontVec` is external to the repository: the embedding keeps
just the queries the source makes of it.  Glyph horizontal advances come
from the font's `hmtx` table, whose advance widths are unsigned 16-bit
integers, so advances are nonnegative; `units_per_em` returns `Some` of a
positive value or `None` (the source substitutes `1000.0`).  The vertical
metrics (`ascent`, `descent`, `line_gap`) are signed in the font format
and are left unconstrained. -/

structure FontVec where
  h_advance_unscaled : Char → ℚ
  ascent_unscaled : ℚ
  descent_unscaled : ℚ
  line_gap_unscaled : ℚ
  units_per_em : Option ℚ
  adv_nonneg : ∀ c, 0 ≤ h_advance_unscaled c
  upm_pos : ∀ u, units_per_em = some u → 0 < u

/-- `font.units_per_em().unwrap_or(1000.0)` of the source. -/
def FontVec.upm (f : FontVec) : ℚ := f.units_per_em.getD 1000

theorem FontVec.upm_pos' (f : FontVec) : 0 < f.upm := by
  unfold FontVec.upm
  cases h : f.units_per_em with
  | none => norm_num [Option.getD]
  | some u => simpa [Option.getD] using f.upm_pos u h

/-- `ab_glyph::PxScale`: a horizontal and a vertical pixel scale. -/
structure PxScale where
  x : ℚ
  y : ℚ

/-- `PxScale::from(s)` sets both components. -/
def PxScale.from' (s : ℚ) : PxScale := ⟨s, s⟩

/-! ## `textarea.rs`: segment parser -/

structure TextSegment where
  text : List Char
  is_highlighted : Bool
deriving DecidableEq, Repr

/-- One step of the character loop of `parse_highlighted_text`:
state is `(segments, current, in_highlight)`. -/
def parse_step :
    List TextSegment × List Char × Bool → Char →
      List TextSegment × List Char × Bool
  | (segments, current, in_highlight), ch =>
  if ch = '【' ∨ ch = '[' then
    let segments :=
      if current ≠ [] then segments ++ [⟨current, in_highlight⟩] else segments
    (segments, [ch], true)
  else if ch = '】' ∨ ch = ']' then
    let current := current ++ [ch]
    if in_highlight then (segments ++ [⟨current, true⟩], [], false)
    else (segments, current, in_highlight)
  else
    (segments, current ++ [ch], in_highlight)

/-- `parse_highlighted_text` of `textarea.rs`. -/
def parse_highlighted_text (text : List Char) : List TextSegment :=
  let st := text.foldl parse_step ([], [], false)
  if st.2.1 ≠ [] then st.1 ++ [⟨st.2.1, st.2.2⟩] else st.1

/-! ## `textarea.rs`: glyph metrics -/

/-- `measure_text_width`: sum of per-character scaled advances, with a
single ceiling applied to the whole sum (`width.ceil() as i32`). -/
def measure_text_width (text : List Char) (font : FontVec) (scale : PxScale) : ℤ :=
  ⌈(text.map (fun c => font.h_advance_unscaled c * scale.x / font.upm)).sum⌉

/-- `get_line_height`. -/
def get_line_height (font : FontVec) (scale : PxScale) : ℤ :=
  ⌈(font.ascent_unscaled - font.descent_unscaled + font.line_gap_unscaled)
      * scale.y / font.upm⌉

/-! ## Rust `str::lines`

`text.lines()` splits after every `'\n'` and strips the terminator
(`"\n"` or `"\r\n"`) from each piece; a final piece without a
terminator is kept as is, and the empty string yields no lines. -/

def split_inclusive_nl : List Char → List (List Char)
  | [] => []
  | c :: rest =>
    if c = '\n' then [c] :: split_inclusive_nl rest
    else
      match split_inclusive_nl rest with
      | [] => [[c]]
      | l :: ls => (c :: l) :: ls

/-- Strip a `"\n"` or `"\r\n"` suffix (the `LinesMap` of Rust's `str::lines`). -/
def lines_map (l : List Char) : List Char :=
  if l.getLast? = some '\n' then
    let l1 := l.dropLast
    if l1.getLast? = some '\r' then l1.dropLast else l1
  else l

/-- Rust `text.lines()` as a list of paragraphs. -/
def str_lines (s : List Char) : List (List Char) :=
  (split_inclusive_nl s).map lines_map

/-! ## `textarea.rs`: line wrapper -/

/-- A wrapped line: ordered `(segment, measured width)` pairs. -/
abbrev Line := List (TextSegment × ℤ)

/-- The mutable state of the wrapping loop of `wrap_text`. -/
structure WrapState where
  lines : List Line
  current_line : Line
  current_segment : TextSegment
  line_width : ℤ
deriving DecidableEq

/-- Flush `current_segment` into `current_line` if non-empty, recording its
measured width (the `if !current_segment.text.is_empty()` blocks). -/
def flush_segment (font : FontVec) (scale : PxScale) (cl : Line)
    (seg : TextSegment) : Line :=
  if seg.text ≠ [] then cl ++ [(seg, measure_text_width seg.text font scale)]
  else cl

/-- One step of the per-character loop of `wrap_text`; `hl` is the
highlight flag of the segment the character came from. -/
def wrap_step (font : FontVec) (scale : PxScale) (max_width : ℤ)
    (st : WrapState) (hl : Bool) (ch : Char) : WrapState :=
  let char_width := measure_text_width [ch] font scale
  if st.line_width + char_width ≤ max_width then
    if st.current_segment.is_highlighted = hl then
      ⟨st.lines, st.current_line,
        ⟨st.current_segment.text ++ [ch], st.current_segment.is_highlighted⟩,
        st.line_width + char_width⟩
    else
      ⟨st.lines, flush_segment font scale st.current_line st.current_segment,
        ⟨[ch], hl⟩, st.line_width + char_width⟩
  else
    let cl := flush_segment font scale st.current_line st.current_segment
    ⟨(if cl ≠ [] then st.lines ++ [cl] else st.lines), [], ⟨[ch], hl⟩, char_width⟩

/-- The `for segment in segments { for ch in segment.text.chars() }` nest
of `wrap_text`. -/
def wrap_run (font : FontVec) (scale : PxScale) (max_width : ℤ)
    (st : WrapState) (segments : List TextSegment) : WrapState :=
  segments.foldl
    (fun st seg => seg.text.foldl
      (fun st ch => wrap_step font scale max_width st seg.is_highlighted ch) st)
    st

/-- The final flush after a paragraph's character loop (push the leftover
segment, then the leftover line if non-empty). -/
def wrap_finish (font : FontVec) (scale : PxScale) (st : WrapState) :
    List Line :=
  let cl := flush_segment font scale st.current_line st.current_segment
  if cl ≠ [] then st.lines ++ [cl] else st.lines

/-- The body of the `for paragraph in text.lines()` loop of `wrap_text`,
threading the accumulated `lines`. -/
def wrap_paragraph (font : FontVec) (scale : PxScale) (max_width : ℤ)
    (lines : List Line) (paragraph : List Char) : List Line :=
  if paragraph = [] then lines ++ [[(⟨[], false⟩, 0)]]
  else
    wrap_finish font scale
      (wrap_run font scale max_width ⟨lines, [], ⟨[], false⟩, 0⟩
        (parse_highlighted_text paragraph))

/-- `wrap_text` of `textarea.rs`. -/
def wrap_text (text : List Char) (font : FontVec) (scale : PxScale)
    (max_width : ℤ) : List Line :=
  let lines := (str_lines text).foldl (wrap_paragraph font scale max_width) []
  if lines = [] then [[(⟨[], false⟩, 0)]] else lines

/-! ## `textarea.rs`: font-size fitter -/

structure PreparedTextarea where
  font_size : ℕ
  lines : List Line
  spaced_line_height : ℤ
  block_height : ℤ
deriving DecidableEq

/-- Total recorded width of one wrapped line (the inner
`for (_, width) in line` accumulation of `prepare_textarea`). -/
def line_total_width (l : Line) : ℤ := (l.map (fun p => p.2)).sum

/-- `max_width` as computed in the fitter's loop (fold of `max`, starting
from `0`). -/
def lines_max_width (ls : List Line) : ℤ :=
  ls.foldl (fun m l => max m (line_total_width l)) 0

/-- The `while lo <= hi` binary-search loop of `prepare_textarea`.

The Rust loop terminates because the bracket `[lo, hi]` strictly shrinks;
the embedding makes this explicit with a `fuel` argument that
`prepare_textarea` instantiates with the initial bracket size, which is
provably sufficient (`lo`, `hi` are modelled as `ℤ` so that the
`hi = mid - 1` update needs no truncation). -/
def prepare_loop (text : List Char) (font : FontVec)
    (region_width region_height : ℕ) (line_spacing : ℚ) :
    ℕ → ℤ → ℤ → PreparedTextarea → PreparedTextarea
  | 0, _, _, best => best
  | fuel + 1, lo, hi, best =>
    if lo ≤ hi then
      let mid := (lo + hi) / 2
      let scale := PxScale.from' (mid : ℚ)
      let lines := wrap_text text font scale (region_width : ℤ)
      let line_height := get_line_height font scale
      let spaced_line_height := ⌈(line_height : ℚ) * (1 + line_spacing)⌉
      let max_width := lines_max_width lines
      let total_height :=
        if lines = [] then line_height else spaced_line_height * lines.length
      if max_width ≤ (region_width : ℤ) ∧ total_height ≤ (region_height : ℤ) then
        prepare_loop text font region_width region_height line_spacing
          fuel (mid + 1) hi ⟨mid.toNat, lines, spaced_line_height, total_height⟩
      else
        prepare_loop text font region_width region_height line_spacing
          fuel lo (mid - 1) best
    else best

/-- `prepare_textarea` of `textarea.rs`. -/
def prepare_textarea (text : List Char) (font : FontVec)
    (region_width region_height : ℕ) (max_font_size : Option ℕ)
    (line_spacing : ℚ) : PreparedTextarea :=
  let max_size :=
    match max_font_size with
    | some max_h => min max_h region_height
    | none => region_height
  prepare_loop text font region_width region_height line_spacing
    (max_size + 1) 1 (max_size : ℤ)
    ⟨1, [[(⟨text, false⟩, 0)]], 1, 1⟩

/-! ## `data.rs`: configuration data model -/

/-- `image::Rgba<u8>`: a color value (channel range is immaterial here). -/
structure Rgba where
  r : ℕ
  g : ℕ
  b : ℕ
  a : ℕ
deriving DecidableEq

def BLACK : Rgba := ⟨0, 0, 0, 255⟩

def WHITE : Rgba := ⟨255, 255, 255, 255⟩

inductive ColorInput
  | RgbaArr (c : Rgba)
  | RgbArr (r g b : ℕ)
  | Literal (s : String)
deriving DecidableEq

/-- `ColorInput::to_rgba` of `data.rs`. -/
def ColorInput.to_rgba (self : ColorInput) (primary : Rgba) : Rgba :=
  match self with
  | .RgbaArr c => c
  | .RgbArr r g b => ⟨r, g, b, 255⟩
  | .Literal s =>
    if s = "primary" then primary
    else if s = "white" then WHITE
    else BLACK

inductive HorizontalAlign
  | Left
  | Center
  | Right
deriving DecidableEq

inductive VerticalAlign
  | Top
  | Middle
  | Bottom
deriving DecidableEq

structure TextAreaConfig where
  position : ℤ × ℤ
  size : ℕ × ℕ
  font_color : ColorInput
  highlight : Option ColorInput
  max_font_size : Option ℕ
  shadow_offset : ℤ × ℤ
  line_spacing : ℚ
  align : HorizontalAlign
  valign : VerticalAlign

inductive ObjectConfig
  | Text (text : List Char) (position : ℤ × ℤ) (font_color : ColorInput)
      (font_size : ℕ)
  | Image (position : ℤ × ℤ) (path : List String)

structure CharacterConfig where
  name : String
  backgrounds : List String
  font : String
  primary_color : Rgba
  objects : List ObjectConfig
  textarea : TextAreaConfig

/-! ## Data manager and resource loading

`data_manager.rs` of the core crate keys its queries by character id and
reads the filesystem through `collect_image_paths`; the filesystem is an
oracle here (`background_files` / `image_files` give the collected paths
per glob pattern).  The revision of `get_character` /
`get_character_images` that `image_generator.rs` links against is not in
the source tree (only this id-keyed revision and callers are), so the
id-keyed behaviour is used: a lookup is `none` exactly when the
character id is absent. -/

structure DataManager where
  data_dir : String
  character_configs : List (String × CharacterConfig)
  background_files : String → List String
  image_files : String → List String

/-- Rust `Vec::sort_unstable` on collected paths. -/
def sort_paths (l : List String) : List String :=
  l.mergeSort (fun a b => a ≤ b)

/-- Rust `Vec::dedup`: removes consecutive duplicates. -/
def dedup_paths (l : List String) : List String := l.destutter (· ≠ ·)

/-- Modelled from the spec: `DataManager::get_character` is absent from
the source tree (only its callers are); the spec's resource resolver
supplies "the character's structured profile", a lookup in the
configured character map. -/
def get_character (dm : DataManager) (character_id : String) :
    Option CharacterConfig :=
  dm.character_configs.lookup character_id

/-- `DataManager::get_backgrounds`: collects files for every configured
background pattern and fails when nothing was found. -/
def get_backgrounds (dm : DataManager) (config : CharacterConfig) :
    Option (List String) :=
  let backgrounds := config.backgrounds.flatMap dm.background_files
  if backgrounds = [] then none
  else some (dedup_paths (sort_paths backgrounds))

/-- `DataManager::get_font_path` (the revision called by
`generate_image` returns the path directly). -/
def get_font_path (dm : DataManager) (config : CharacterConfig) : String :=
  dm.data_dir ++ "/fonts/" ++ config.font

/-- `DataManager::get_character_images` (id-keyed, per
`data_manager.rs`): `none` exactly when the character id is absent,
otherwise the per-pattern file lists with `%c` resolved to the id. -/
def get_character_images (dm : DataManager) (character_id : String) :
    Option (List (String × List String)) :=
  match dm.character_configs.lookup character_id with
  | none => none
  | some config =>
    let image_patterns := config.objects.flatMap fun o =>
      match o with
      | .Image _ path => path
      | _ => []
    let image_patterns := dedup_paths (sort_paths image_patterns)
    some (image_patterns.map fun p =>
      (p, dm.image_files (p.replace "%c" character_id)))

/-! ## `image_generator.rs` -/

/-- A mutable RGBA raster: dimensions plus abstract pixel contents. -/
structure RgbaImage where
  width : ℕ
  height : ℕ
  pixel : ℕ → ℕ → Rgba

/-- External effects of `image_generator.rs` (decoding random images,
loading the font, glyph rasterisation, compositing, PNG encoding,
Lanczos resampling).  `load_random_image` absorbs the rng: it is `none`
when the path list is empty or the (up to 3) decode attempts fail. -/
structure RenderOracles where
  load_random_image : List String → Option RgbaImage
  load_font : String → Option FontVec
  draw_text_mut : RgbaImage → Rgba → ℤ → ℤ → PxScale → FontVec →
    List Char → RgbaImage
  overlay : RgbaImage → RgbaImage → ℤ → ℤ → RgbaImage
  png_size : RgbaImage → Option ℕ
  resize : RgbaImage → ℕ → ℕ → RgbaImage

/-- `draw_text_with_shadow`: enlarge the scale by 1.3, draw the black
shadow at the offset position, then the main text. -/
def draw_text_with_shadow (o : RenderOracles) (image : RgbaImage)
    (text : List Char) (x y : ℤ) (font : FontVec) (scale : PxScale)
    (color : Rgba) (shadow_offset : ℤ × ℤ) : RgbaImage :=
  let scale : PxScale := ⟨scale.x * (13 / 10), scale.y * (13 / 10)⟩
  let shadow_color : Rgba := ⟨0, 0, 0, 255⟩
  let image := o.draw_text_mut image shadow_color (x + shadow_offset.1)
    (y + shadow_offset.2) scale font text
  o.draw_text_mut image color x y scale font text

/-- The per-line drawing loop of `draw_textarea` (draw each non-empty
run, advance `y` by the spaced line height, stop once `y` reaches the
bottom edge `y2`). -/
def draw_textarea_lines (o : RenderOracles) (font : FontVec)
    (config : TextAreaConfig) (normal_color : Rgba)
    (highlight_color : Option Rgba) (scale : PxScale)
    (spaced_line_height y2 x1 x2 : ℤ) :
    RgbaImage → ℤ → List Line → RgbaImage
  | image, _, [] => image
  | image, y, line :: rest =>
    let line_width := line_total_width line
    let x : ℤ :=
      match config.align with
      | .Left => x1
      | .Center => x1 + ((config.size.1 : ℤ) - line_width) / 2
      | .Right => x2 - line_width
    let drawn := line.foldl
      (fun (acc : RgbaImage × ℤ) p =>
        if p.1.text ≠ [] then
          let color :=
            match highlight_color with
            | some hl_color => if p.1.is_highlighted then hl_color else normal_color
            | none => normal_color
          (draw_text_with_shadow o acc.1 p.1.text acc.2 y font scale color
            config.shadow_offset, acc.2 + p.2)
        else acc)
      (image, x)
    let y := y + spaced_line_height
    if y ≥ y2 then drawn.1
    else draw_textarea_lines o font config normal_color highlight_color scale
      spaced_line_height y2 x1 x2 drawn.1 y rest

/-- `draw_textarea` of `image_generator.rs`. -/
def draw_textarea (o : RenderOracles) (image : RgbaImage) (text : List Char)
    (font : FontVec) (config : TextAreaConfig) (primary_color : Rgba) :
    RgbaImage :=
  let x1 := config.position.1
  let y1 := config.position.2
  let x2 := x1 + (config.size.1 : ℤ)
  let y2 := y1 + (config.size.2 : ℤ)
  let normal_color := config.font_color.to_rgba primary_color
  let highlight_color := config.highlight.map (fun c => c.to_rgba primary_color)
  let prepared := prepare_textarea text font config.size.1 config.size.2
    config.max_font_size config.line_spacing
  let scale := PxScale.from' (prepared.font_size : ℚ)
  let y_start :=
    match config.valign with
    | .Top => y1
    | .Middle => y1 + ((config.size.2 : ℤ) - prepared.block_height) / 2
    | .Bottom => y2 - prepared.block_height
  draw_textarea_lines o font config normal_color highlight_color scale
    prepared.spaced_line_height y2 x1 x2 image y_start prepared.lines

/-- The exact value of `⌊w * sqrt(target/original) * 0.9⌋` (the
`(width as f32 * scale_factor) as u32` cast of `compress_image`, which
truncates the nonnegative product), computed with integer arithmetic:
`w·(9/10)·√(target/original) = √(81·w²·target·100·original)/(100·original)`. -/
def scaled_dim (w target original : ℕ) : ℕ :=
  Nat.sqrt (81 * w ^ 2 * target * (100 * original)) / (100 * original)

/-- `compress_image` of `image_generator.rs`: encode to PNG in memory
(`png_size`; on encoding failure return the raster unchanged), return
unchanged when within budget, otherwise resize once by
`sqrt(target/actual) * 0.9` with dimensions floored and clamped to 1. -/
def compress_image (png_size : RgbaImage → Option ℕ)
    (resize : RgbaImage → ℕ → ℕ → RgbaImage) (img : RgbaImage)
    (target_size_bytes : ℕ) : RgbaImage :=
  match png_size img with
  | none => img
  | some original_size =>
    if original_size ≤ target_size_bytes then img
    else
      let width := max (scaled_dim img.width target_size_bytes original_size) 1
      let height := max (scaled_dim img.height target_size_bytes original_size) 1
      resize img width height

inductive GenError
  | characterNotFound
  | noBackgrounds
  | backgroundLoadFailed
  | fontLoadFailed
deriving DecidableEq

/-- Outcome of `generate_image`: an image, an `anyhow` error, or an
unrecoverable process failure (the `.unwrap()` on a `None`). -/
inductive GenResult (α : Type _)
  | ok (val : α)
  | err (e : GenError)
  | panicked

def usize_max : ℕ := 2 ^ 64 - 1

/-- `generate_image` of `image_generator.rs`.  The missing config-keyed
`get_character_images` is modelled as the id-keyed revision applied to
the id that was just resolved. -/
def generate_image (o : RenderOracles) (dm : DataManager)
    (character_id : String) (text : List Char) (max_size : ℕ) :
    GenResult RgbaImage :=
  match get_character dm character_id with
  | none => .err .characterNotFound
  | some character_config =>
    match get_backgrounds dm character_config with
    | none => .err .noBackgrounds
    | some backgrounds =>
      match o.load_random_image backgrounds with
      | none => .err .backgroundLoadFailed
      | some image =>
        let font_path := get_font_path dm character_config
        match o.load_font font_path with
        | none => .err .fontLoadFailed
        | some font =>
          match get_character_images dm character_id with
          | none => .panicked
          | some character_imgs =>
            let image := character_config.objects.foldl
              (fun image object =>
                match object with
                | .Image position path =>
                  let available_imgs := path.flatMap fun pattern =>
                    match character_imgs.lookup pattern with
                    | some imgs => imgs
                    | none => []
                  let available_imgs := dedup_paths (sort_paths available_imgs)
                  match o.load_random_image available_imgs with
                  | some img => o.overlay image img position.1 position.2
                  | none => image
                | .Text t position font_color font_size =>
                  if t ≠ [] then
                    draw_text_with_shadow o image t position.1 position.2 font
                      (PxScale.from' (font_size : ℚ))
                      (font_color.to_rgba character_config.primary_color) (2, 2)
                  else image)
              image
            let image := draw_textarea o image text font
              character_config.textarea character_config.primary_color
            .ok (if 0 < max_size then
                let target := if usize_max / 1024 < max_size then usize_max
                  else max_size * 1024
                compress_image o.png_size o.resize image target
              else image)

/-! ## Definitions for the proofs -/

/-- Concatenation of the segment texts. -/
def segs_text (segs : List TextSegment) : List Char :=
  segs.flatMap fun s => s.text

/-- The characters of a segment list, each tagged with its segment's
highlight flag. -/
def seg_pairs (segs : List TextSegment) : List (Char × Bool) :=
  segs.flatMap fun s => s.text.map fun c => (c, s.is_highlighted)

/-- The character loop of `wrap_text`, flattened over tagged characters. -/
def wrap_run_pairs (font : FontVec) (scale : PxScale) (max_width : ℤ)
    (st : WrapState) (ps : List (Char × Bool)) : WrapState :=
  ps.foldl (fun st p => wrap_step font scale max_width st p.2 p.1) st

/-- Prepend already-finished lines to the state. -/
def shift_lines (L : List Line) (st : WrapState) : WrapState :=
  ⟨L ++ st.lines, st.current_line, st.current_segment, st.line_width⟩

/-- All text recorded in a finished line. -/
def line_text (l : Line) : List Char := l.flatMap fun p => p.1.text

/-- All text recorded in a list of finished lines. -/
def lines_text (ls : List Line) : List Char := ls.flatMap line_text

/-- All text held by a wrap state, in order. -/
def state_text (st : WrapState) : List Char :=
  lines_text st.lines ++ line_text st.current_line ++ st.current_segment.text

/-- Every recorded width in a line is the ceil-once measure of its run's
text. -/
def line_widths_ok (font : FontVec) (scale : PxScale) (l : Line) : Prop :=
  ∀ p ∈ l, p.2 = measure_text_width p.1.text font scale

/-- Invariant of the wrapping loop under the width bound: all finished
lines fit, the recorded widths of the open line are dominated by the
running `line_width`, and the running width is within the bound. -/
def widths_within (font : FontVec) (scale : PxScale) (max_width : ℤ)
    (st : WrapState) : Prop :=
  (∀ l ∈ st.lines, line_total_width l ≤ max_width) ∧
  line_total_width st.current_line +
    measure_text_width st.current_segment.text font scale ≤ st.line_width ∧
  st.line_width ≤ max_width

/-- A concrete font for witnesses: every advance is 1 font unit, the
vertical extent is 3 units, and one font unit equals one pixel. -/
def testFont : FontVec where
  h_advance_unscaled := fun _ => 1
  ascent_unscaled := 2
  descent_unscaled := -1
  line_gap_unscaled := 0
  units_per_em := some 1
  adv_nonneg := fun _ => by norm_num
  upm_pos := fun u h => by
    simp only [Option.some.injEq] at h
    subst h
    norm_num

/-- The first greedy line over a width list: starting from accumulated
width `acc`, take items while the running sum stays within `W`; returns
the taken prefix and the rest.  This is the abstract line-breaking rule
of `wrap_text`'s character loop (a line's first item is always taken by
the caller, so `take_line` handles the items after it). -/
def take_line (W : ℤ) : ℤ → List ℤ → List ℤ × List ℤ
  | _, [] => ([], [])
  | acc, w :: rest =>
    if acc + w ≤ W then
      let p := take_line W (acc + w) rest
      (w :: p.1, p.2)
    else ([], w :: rest)

/-- Number of lines of the greedy packing of a width list into capacity
`W` (each line starts with one unconditional item). -/
def glen (W : ℤ) : List ℤ → ℕ
  | [] => 0
  | w :: rest => glen W (take_line W w rest).2 + 1
termination_by ws => ws.length
decreasing_by
  have key : ∀ (acc : ℤ) (ws : List ℤ),
      (take_line W acc ws).2.length ≤ ws.length := by
    intro acc ws
    induction ws generalizing acc with
    | nil => simp [take_line]
    | cons v vs ih =>
      rw [take_line]
      by_cases h : acc + v ≤ W
      · simp only [if_pos h]
        exact le_trans (ih (acc + v)) (Nat.le_succ _)
      · simp [if_neg h]
  simpa using Nat.lt_succ_of_le (key w rest)

/-- The per-character pixel width at a given scale. -/
def char_widths (font : FontVec) (scale : PxScale) (par : List Char) :
    List ℤ :=
  par.map fun c => measure_text_width [c] font scale

/-- Line count contributed by one paragraph of `wrap_text`. -/
def par_line_count (font : FontVec) (scale : PxScale) (W : ℤ)
    (par : List Char) : ℕ :=
  if par = [] then 1 else glen W (char_widths font scale par)

/-- Total line count of `wrap_text` before the non-empty fallback. -/
def text_line_count (font : FontVec) (scale : PxScale) (W : ℤ)
    (text : List Char) : ℕ :=
  ((str_lines text).map (par_line_count font scale W)).sum

/-- The scale `prepare_textarea` probes at integer size `s`. -/
def fit_scale (s : ℕ) : PxScale := PxScale.from' (s : ℚ)

/-- The wrapped lines probed at size `s`. -/
def fit_lines (text : List Char) (font : FontVec) (region_width : ℕ)
    (s : ℕ) : List Line :=
  wrap_text text font (fit_scale s) (region_width : ℤ)

/-- The spaced line height probed at size `s`. -/
def fit_spaced (font : FontVec) (line_spacing : ℚ) (s : ℕ) : ℤ :=
  ⌈(get_line_height font (fit_scale s) : ℚ) * (1 + line_spacing)⌉

/-- The total block height probed at size `s`. -/
def fit_height (text : List Char) (font : FontVec) (region_width : ℕ)
    (line_spacing : ℚ) (s : ℕ) : ℤ :=
  if fit_lines text font region_width s = []
  then get_line_height font (fit_scale s)
  else fit_spaced font line_spacing s *
    (fit_lines text font region_width s).length

/-- The feasibility predicate of the fitter's binary search at size `s`. -/
def fit_feasible (text : List Char) (font : FontVec)
    (region_width region_height : ℕ) (line_spacing : ℚ) (s : ℕ) : Prop :=
  lines_max_width (fit_lines text font region_width s) ≤ (region_width : ℤ) ∧
  fit_height text font region_width line_spacing s ≤ (region_height : ℤ)

/-- Oracles whose resources always load (for concrete instances). -/
def okOracles : RenderOracles where
  load_random_image := fun _ => some ⟨1, 1, fun _ _ => BLACK⟩
  load_font := fun _ => some testFont
  draw_text_mut := fun img _ _ _ _ _ _ => img
  overlay := fun img _ _ _ => img
  png_size := fun _ => some 0
  resize := fun img _ _ => img

/-- A data manager with no characters at all. -/
def emptyDM : DataManager := ⟨"data", [], fun _ => [], fun _ => []⟩

def demoTextarea : TextAreaConfig :=
  ⟨(0, 0), (10, 10), .Literal "primary", none, none, (2, 2), 0, .Left, .Top⟩

def demoConfig : CharacterConfig :=
  ⟨"Demo", ["bg*"], "font.ttf", BLACK, [], demoTextarea⟩

/-- A data manager with one character and one background file. -/
def demoDM : DataManager :=
  ⟨"data", [("demo", demoConfig)], fun _ => ["backgrounds/bg1.png"],
    fun _ => []⟩

/-! ## Basic lemmas about the metrics -/

theorem measure_nil (font : FontVec) (scale : PxScale) :
    measure_text_width [] font scale = 0 := by
  simp [measure_text_width]

theorem measure_singleton (font : FontVec) (scale : PxScale) (c : Char) :
    measure_text_width [c] font scale =
      ⌈font.h_advance_unscaled c * scale.x / font.upm⌉ := by
  simp [measure_text_width]

theorem measure_append_le (font : FontVec) (scale : PxScale)
    (xs ys : List Char) :
    measure_text_width (xs ++ ys) font scale ≤
      measure_text_width xs font scale + measure_text_width ys font scale := by
  unfold measure_text_width
  rw [List.map_append, List.sum_append]
  exact Int.ceil_add_le _ _

theorem char_width_nonneg (font : FontVec) (scale : PxScale)
    (hx : 0 ≤ scale.x) (c : Char) :
    0 ≤ measure_text_width [c] font scale := by
  rw [measure_singleton]
  have : (0 : ℚ) ≤ font.h_advance_unscaled c * scale.x / font.upm := by
    have h1 := font.adv_nonneg c
    have h2 := font.upm_pos'
    positivity
  exact_mod_cast Int.ceil_nonneg this

/-! ## Claim C4: the segment parser state machine -/

/-- **C4.**  `parse_highlighted_text` implements the bracket-marker state
machine: a start marker (`【`/`[`) flushes any non-empty run with the
previous highlight state and begins a new highlighted run containing the
marker; an end marker (`】`/`]`) is appended and, in highlight mode,
flushes the run as highlighted and leaves highlight mode, while outside
highlight mode it is ordinary text; leftovers are flushed with the
active state; and `"a[b]c"` parses to `("a", plain)`, `("[b]",
highlighted)`, `("c", plain)`. -/
theorem C4_parse_state_machine :
    (∀ segments current in_h ch, ch = '【' ∨ ch = '[' →
      parse_step (segments, current, in_h) ch =
        ((if current ≠ [] then segments ++ [⟨current, in_h⟩] else segments),
          [ch], true))
  ∧ (∀ segments current in_h ch, ch = '】' ∨ ch = ']' →
      parse_step (segments, current, in_h) ch =
        if in_h then (segments ++ [⟨current ++ [ch], true⟩], [], false)
        else (segments, current ++ [ch], in_h))
  ∧ (∀ segments current in_h ch, ¬(ch = '【' ∨ ch = '[') →
      ¬(ch = '】' ∨ ch = ']') →
      parse_step (segments, current, in_h) ch =
        (segments, current ++ [ch], in_h))
  ∧ (∀ text : List Char, parse_highlighted_text text =
      (let st := text.foldl parse_step ([], [], false)
       if st.2.1 ≠ [] then st.1 ++ [⟨st.2.1, st.2.2⟩] else st.1))
  ∧ parse_highlighted_text "a[b]c".toList =
      [⟨"a".toList, false⟩, ⟨"[b]".toList, true⟩, ⟨"c".toList, false⟩] := by
  refine ⟨?_, ?_, ?_, fun _ => rfl, by decide⟩
  · rintro segments current in_h ch (rfl | rfl) <;> simp [parse_step]
  · rintro segments current in_h ch (rfl | rfl) <;> simp [parse_step]
  · intro segments current in_h ch h1 h2
    simp only [parse_step, if_neg h1, if_neg h2]

/-- Witness for C4 at concrete inputs. -/
theorem C4_witness :
    parse_step ([], ['a'], false) '[' = ([⟨['a'], false⟩], ['['], true) ∧
    parse_step ([], ['a'], true) ']' = ([⟨['a', ']'], true⟩], [], false) := by
  constructor
  · have h := C4_parse_state_machine.1 [] ['a'] false '[' (Or.inr rfl)
    simpa using h
  · have h := C4_parse_state_machine.2.1 [] ['a'] true ']' (Or.inr rfl)
    simpa using h

/-! ## Claim C10: the wrapper always yields at least one line -/

theorem wrap_text_ne_nil (text : List Char) (font : FontVec)
    (scale : PxScale) (max_width : ℤ) :
    wrap_text text font scale max_width ≠ [] := by
  unfold wrap_text
  simp only []
  split
  · simp
  · assumption

/-- **C10.**  For every input, `wrap_text` returns a non-empty list of
lines; for the empty string (no paragraphs at all) it returns exactly one
line holding a single empty segment of width `0`. -/
theorem C10_wrap_nonempty (text : List Char) (font : FontVec)
    (scale : PxScale) (max_width : ℤ) :
    wrap_text text font scale max_width ≠ []
  ∧ wrap_text [] font scale max_width = [[(⟨[], false⟩, 0)]] :=
  ⟨wrap_text_ne_nil text font scale max_width, rfl⟩

/-! ## Claim C9: PNG-encoding failure skips compression silently -/

/-- **C9.**  When the in-memory PNG encoding fails, `compress_image`
returns the input raster unchanged, raising no error. -/
theorem C9_encode_failure_skips (png_size : RgbaImage → Option ℕ)
    (resize : RgbaImage → ℕ → ℕ → RgbaImage) (img : RgbaImage)
    (target_size_bytes : ℕ) (h : png_size img = none) :
    compress_image png_size resize img target_size_bytes = img := by
  simp [compress_image, h]

/-- Witness for C9 at a concrete raster and encoder. -/
theorem C9_witness :
    compress_image (fun _ => none) (fun img _ _ => img)
      ⟨3, 4, fun _ _ => BLACK⟩ 7 = ⟨3, 4, fun _ _ => BLACK⟩ :=
  C9_encode_failure_skips _ _ _ _ rfl

/-! ## Claim C6: the single-pass compressor -/

/-- `scaled_dim` computes exactly the floor of
`w * sqrt(target/original) * 0.9`. -/
theorem scaled_dim_eq_floor (w target original : ℕ) (h : 0 < original) :
    scaled_dim w target original =
      ⌊(w : ℝ) * Real.sqrt ((target : ℝ) / (original : ℝ)) * (9 / 10)⌋₊ := by
  have ho : (0 : ℝ) < (original : ℝ) := by exact_mod_cast h
  have hD : (0 : ℝ) < ((100 * original : ℕ) : ℝ) := by
    push_cast; positivity
  have key : (w : ℝ) * Real.sqrt ((target : ℝ) / (original : ℝ)) * (9 / 10)
      = Real.sqrt ((81 * w ^ 2 * target * (100 * original) : ℕ) : ℝ)
        / ((100 * original : ℕ) : ℝ) := by
    rw [eq_div_iff hD.ne']
    have h1 : ((81 * w ^ 2 * target * (100 * original) : ℕ) : ℝ)
        = ((90 * (w : ℝ) * (original : ℝ)) ^ 2)
            * ((target : ℝ) / (original : ℝ)) := by
      push_cast
      field_simp
      ring
    rw [h1, Real.sqrt_mul (by positivity), Real.sqrt_sq (by positivity)]
    push_cast
    ring
  rw [key, Nat.floor_div_nat, Real.nat_floor_real_sqrt_eq_nat_sqrt, scaled_dim]

/-- **C6.**  For a positive byte target, `compress_image` returns the
raster unchanged when its in-memory PNG size is at most the target;
otherwise it performs exactly one resize (no second size check), both
dimensions scaled by `sqrt(target/actual) * 0.9`, floored and clamped to
at least 1 pixel; in particular an encoded size of twice the target uses
the scale factor `sqrt(0.5) * 0.9`. -/
theorem C6_compress_policy (png_size : RgbaImage → Option ℕ)
    (resize : RgbaImage → ℕ → ℕ → RgbaImage) (img : RgbaImage)
    (target : ℕ) (ht : 0 < target) :
    (∀ n, png_size img = some n → n ≤ target →
      compress_image png_size resize img target = img)
  ∧ (∀ n, png_size img = some n → target < n →
      (compress_image png_size resize img target =
        resize img
          (max ⌊(img.width : ℝ) * Real.sqrt ((target : ℝ) / (n : ℝ)) * (9 / 10)⌋₊ 1)
          (max ⌊(img.height : ℝ) * Real.sqrt ((target : ℝ) / (n : ℝ)) * (9 / 10)⌋₊ 1))
      ∧ (n = 2 * target →
        compress_image png_size resize img target =
          resize img
            (max ⌊(img.width : ℝ) * Real.sqrt ((1 : ℝ) / 2) * (9 / 10)⌋₊ 1)
            (max ⌊(img.height : ℝ) * Real.sqrt ((1 : ℝ) / 2) * (9 / 10)⌋₊ 1))) := by
  constructor
  · intro n hn hle
    simp [compress_image, hn, hle]
  · intro n hn hgt
    have hpos : 0 < n := lt_of_le_of_lt (Nat.zero_le _) hgt
    have hmain : compress_image png_size resize img target =
        resize img (max (scaled_dim img.width target n) 1)
          (max (scaled_dim img.height target n) 1) := by
      simp [compress_image, hn, Nat.not_le.mpr hgt]
    constructor
    · rw [hmain, scaled_dim_eq_floor _ _ _ hpos, scaled_dim_eq_floor _ _ _ hpos]
    · intro h2
      subst h2
      have hhalf : ((target : ℝ) / ((2 * target : ℕ) : ℝ)) = (1 : ℝ) / 2 := by
        have : (target : ℝ) ≠ 0 := by exact_mod_cast ht.ne'
        push_cast
        field_simp
        ring
      rw [hmain, scaled_dim_eq_floor _ _ _ hpos, scaled_dim_eq_floor _ _ _ hpos,
        hhalf]

/-- Witness for C6: a 10×20 raster whose encoding of 200 bytes is four
times the 50-byte target resizes once to 4×9 (`scale = 0.45`). -/
theorem C6_witness :
    compress_image (fun _ => some 200) (fun img w h => ⟨w, h, img.pixel⟩)
      ⟨10, 20, fun _ _ => BLACK⟩ 50 =
      ⟨4, 9, (⟨10, 20, fun _ _ => BLACK⟩ : RgbaImage).pixel⟩ := by
  have h := ((C6_compress_policy (fun _ => some 200)
    (fun img w h => ⟨w, h, img.pixel⟩) ⟨10, 20, fun _ _ => BLACK⟩ 50
    (by norm_num)).2 200 rfl (by norm_num)).1
  rw [h]
  have e1 : ⌊((10 : ℕ) : ℝ) * Real.sqrt (((50 : ℕ) : ℝ) / ((200 : ℕ) : ℝ)) * (9 / 10)⌋₊ = 4 := by
    rw [← scaled_dim_eq_floor 10 50 200 (by norm_num)]
    have hs : Nat.sqrt 8100000000 = 90000 := by
      have h1 : 90000 ≤ Nat.sqrt 8100000000 := Nat.le_sqrt.2 (by norm_num)
      have h2 : Nat.sqrt 8100000000 < 90001 := Nat.sqrt_lt.2 (by norm_num)
      omega
    have : (81 * 10 ^ 2 * 50 * (100 * 200) : ℕ) = 8100000000 := by norm_num
    rw [scaled_dim, this, hs]
  have e2 : ⌊((20 : ℕ) : ℝ) * Real.sqrt (((50 : ℕ) : ℝ) / ((200 : ℕ) : ℝ)) * (9 / 10)⌋₊ = 9 := by
    rw [← scaled_dim_eq_floor 20 50 200 (by norm_num)]
    have hs : Nat.sqrt 32400000000 = 180000 := by
      have h1 : 180000 ≤ Nat.sqrt 32400000000 := Nat.le_sqrt.2 (by norm_num)
      have h2 : Nat.sqrt 32400000000 < 180001 := Nat.sqrt_lt.2 (by norm_num)
      omega
    have : (81 * 20 ^ 2 * 50 * (100 * 200) : ℕ) = 32400000000 := by norm_num
    rw [scaled_dim, this, hs]
  have ew : (⟨10, 20, fun _ _ => BLACK⟩ : RgbaImage).width = (10 : ℕ) := rfl
  have eh : (⟨10, 20, fun _ _ => BLACK⟩ : RgbaImage).height = (20 : ℕ) := rfl
  rw [ew, eh, e1, e2]
  norm_num

/-! ## Structure of the wrapping fold

The nested segment/character loops of `wrap_text` are recast as a single
fold over `(character, highlight)` pairs, the accumulated `lines` list is
shown to be write-only (everything appended is independent of it), and
the concatenation of all output text is shown to reproduce the input. -/

theorem seg_pairs_map_fst (segs : List TextSegment) :
    (seg_pairs segs).map Prod.fst = segs_text segs := by
  unfold seg_pairs segs_text
  rw [List.map_flatMap]
  apply List.flatMap_congr
  intro a _
  simp [Function.comp_def]

theorem seg_pairs_cons (s : TextSegment) (rest : List TextSegment) :
    seg_pairs (s :: rest) =
      s.text.map (fun c => (c, s.is_highlighted)) ++ seg_pairs rest := by
  simp [seg_pairs]

theorem wrap_run_pairs_append (font : FontVec) (scale : PxScale)
    (max_width : ℤ) (st : WrapState) (ps qs : List (Char × Bool)) :
    wrap_run_pairs font scale max_width st (ps ++ qs) =
      wrap_run_pairs font scale max_width
        (wrap_run_pairs font scale max_width st ps) qs :=
  List.foldl_append ..

theorem wrap_run_eq_pairs (font : FontVec) (scale : PxScale) (max_width : ℤ)
    (st : WrapState) (segs : List TextSegment) :
    wrap_run font scale max_width st segs =
      wrap_run_pairs font scale max_width st (seg_pairs segs) := by
  induction segs generalizing st with
  | nil => rfl
  | cons s rest ih =>
    rw [seg_pairs_cons, wrap_run_pairs_append]
    rw [show wrap_run font scale max_width st (s :: rest) =
        wrap_run font scale max_width
          (s.text.foldl
            (fun st ch => wrap_step font scale max_width st s.is_highlighted ch)
            st) rest from rfl, ih]
    congr 1
    rw [wrap_run_pairs, List.foldl_map]

theorem wrap_step_shift (font : FontVec) (scale : PxScale) (max_width : ℤ)
    (L : List Line) (st : WrapState) (hl : Bool) (ch : Char) :
    wrap_step font scale max_width (shift_lines L st) hl ch =
      shift_lines L (wrap_step font scale max_width st hl ch) := by
  obtain ⟨ls, cl, seg, lw⟩ := st
  unfold wrap_step shift_lines
  by_cases h1 : lw + measure_text_width [ch] font scale ≤ max_width
  · simp only [if_pos h1]
    by_cases h2 : seg.is_highlighted = hl <;> simp [h2]
  · simp only [if_neg h1]
    by_cases h2 : flush_segment font scale cl seg ≠ [] <;> simp [h2]

theorem wrap_run_pairs_shift (font : FontVec) (scale : PxScale)
    (max_width : ℤ) (L : List Line) (st : WrapState)
    (ps : List (Char × Bool)) :
    wrap_run_pairs font scale max_width (shift_lines L st) ps =
      shift_lines L (wrap_run_pairs font scale max_width st ps) := by
  induction ps generalizing st with
  | nil => rfl
  | cons p rest ih =>
    rw [wrap_run_pairs, List.foldl_cons, ← wrap_run_pairs, wrap_step_shift, ih]
    rfl

theorem wrap_finish_shift (font : FontVec) (scale : PxScale) (L : List Line)
    (st : WrapState) :
    wrap_finish font scale (shift_lines L st) =
      L ++ wrap_finish font scale st := by
  obtain ⟨ls, cl, seg, lw⟩ := st
  unfold wrap_finish shift_lines
  by_cases h : flush_segment font scale cl seg ≠ [] <;> simp [h]

theorem wrap_paragraph_shift (font : FontVec) (scale : PxScale)
    (max_width : ℤ) (lines : List Line) (par : List Char) :
    wrap_paragraph font scale max_width lines par =
      lines ++ wrap_paragraph font scale max_width [] par := by
  unfold wrap_paragraph
  by_cases h : par = []
  · simp [h]
  · rw [if_neg h, if_neg h, wrap_run_eq_pairs, wrap_run_eq_pairs]
    have hst : (⟨lines, [], ⟨[], false⟩, 0⟩ : WrapState) =
        shift_lines lines ⟨[], [], ⟨[], false⟩, 0⟩ := by
      simp [shift_lines]
    rw [hst, wrap_run_pairs_shift, wrap_finish_shift]

/-- The paragraph loop of `wrap_text` concatenates independent
per-paragraph outputs. -/
theorem wrap_fold_flat (font : FontVec) (scale : PxScale) (max_width : ℤ)
    (L : List Line) (pars : List (List Char)) :
    pars.foldl (wrap_paragraph font scale max_width) L =
      L ++ pars.flatMap (wrap_paragraph font scale max_width []) := by
  induction pars generalizing L with
  | nil => simp
  | cons par rest ih =>
    rw [List.foldl_cons, ih, List.flatMap_cons,
      wrap_paragraph_shift font scale max_width L par, List.append_assoc]

theorem wrap_text_eq_flat (text : List Char) (font : FontVec)
    (scale : PxScale) (max_width : ℤ) :
    wrap_text text font scale max_width =
      (let all := (str_lines text).flatMap
        (wrap_paragraph font scale max_width [])
       if all = [] then [[(⟨[], false⟩, 0)]] else all) := by
  unfold wrap_text
  rw [wrap_fold_flat]
  simp

/-! ## Character preservation through the parser and the wrapper -/

theorem segs_text_append (a b : List TextSegment) :
    segs_text (a ++ b) = segs_text a ++ segs_text b := by
  simp [segs_text]

theorem parse_step_text (st : List TextSegment × List Char × Bool)
    (c : Char) :
    segs_text (parse_step st c).1 ++ (parse_step st c).2.1 =
      segs_text st.1 ++ st.2.1 ++ [c] := by
  obtain ⟨segs, cur, hl⟩ := st
  rw [parse_step]
  by_cases h1 : c = '【' ∨ c = '['
  · rw [if_pos h1]
    by_cases h2 : cur = [] <;> simp [h2, segs_text_append, segs_text]
  · rw [if_neg h1]
    by_cases h2 : c = '】' ∨ c = ']'
    · rw [if_pos h2]
      by_cases h3 : hl <;> simp [h3, segs_text_append, segs_text]
    · rw [if_neg h2]
      simp

theorem parse_fold_text (cs : List Char)
    (st : List TextSegment × List Char × Bool) :
    segs_text ((cs.foldl parse_step st).1) ++ (cs.foldl parse_step st).2.1 =
      segs_text st.1 ++ st.2.1 ++ cs := by
  induction cs generalizing st with
  | nil => simp
  | cons c rest ih =>
    rw [List.foldl_cons, ih, parse_step_text]
    simp

theorem segs_text_nil : segs_text [] = [] := rfl

theorem segs_text_singleton (s : TextSegment) : segs_text [s] = s.text := by
  simp [segs_text]

/-- The parser never loses or duplicates a character: the segment texts
concatenate back to the input. -/
theorem parse_text (text : List Char) :
    segs_text (parse_highlighted_text text) = text := by
  have h := parse_fold_text text ([], [], false)
  simp only [segs_text_nil, List.nil_append] at h
  simp only [parse_highlighted_text]
  by_cases hc : (text.foldl parse_step ([], [], false)).2.1 = []
  · rw [if_neg (by simp [hc])]
    rw [hc, List.append_nil] at h
    exact h
  · rw [if_pos hc, segs_text_append, segs_text_singleton]
    exact h

theorem lines_text_append (a b : List Line) :
    lines_text (a ++ b) = lines_text a ++ lines_text b := by
  simp [lines_text]

theorem lines_text_singleton (l : Line) : lines_text [l] = line_text l := by
  simp [lines_text]

theorem flush_segment_text (font : FontVec) (scale : PxScale) (cl : Line)
    (seg : TextSegment) :
    line_text (flush_segment font scale cl seg) = line_text cl ++ seg.text := by
  unfold flush_segment
  by_cases h : seg.text = [] <;> simp [h, line_text]

theorem wrap_step_text (font : FontVec) (scale : PxScale) (max_width : ℤ)
    (st : WrapState) (hl : Bool) (ch : Char) :
    state_text (wrap_step font scale max_width st hl ch) =
      state_text st ++ [ch] := by
  obtain ⟨ls, cl, seg, lw⟩ := st
  unfold wrap_step
  by_cases h1 : lw + measure_text_width [ch] font scale ≤ max_width
  · rw [if_pos h1]
    by_cases h2 : seg.is_highlighted = hl <;>
      simp [h2, state_text, flush_segment_text]
  · rw [if_neg h1]
    by_cases h2 : flush_segment font scale cl seg = []
    · have h3 : line_text cl ++ seg.text = [] := by
        rw [← flush_segment_text font scale, h2, line_text]
        rfl
      have h3a := (List.append_eq_nil.mp h3).1
      have h3b := (List.append_eq_nil.mp h3).2
      simp [h2, state_text, line_text, h3a, h3b]
      intro a b hab
      exact List.flatMap_eq_nil_iff.mp h3a (a, b) hab
    · simp only [state_text, ne_eq, h2, not_false_eq_true, if_pos,
        lines_text_append, lines_text_singleton, flush_segment_text]
      simp [line_text, List.append_assoc]

theorem wrap_run_pairs_text (font : FontVec) (scale : PxScale)
    (max_width : ℤ) (st : WrapState) (ps : List (Char × Bool)) :
    state_text (wrap_run_pairs font scale max_width st ps) =
      state_text st ++ ps.map Prod.fst := by
  induction ps generalizing st with
  | nil => simp [wrap_run_pairs]
  | cons p rest ih =>
    rw [wrap_run_pairs, List.foldl_cons, ← wrap_run_pairs, ih, wrap_step_text]
    simp

theorem wrap_finish_text (font : FontVec) (scale : PxScale) (st : WrapState) :
    lines_text (wrap_finish font scale st) = state_text st := by
  unfold wrap_finish
  by_cases h : flush_segment font scale st.current_line st.current_segment = []
  · have h3 : line_text st.current_line ++ st.current_segment.text = [] := by
      rw [← flush_segment_text font scale, h, line_text]
      rfl
    have h3a := (List.append_eq_nil.mp h3).1
    have h3b := (List.append_eq_nil.mp h3).2
    simp [h, state_text, h3a, h3b]
  · simp only [ne_eq, h, not_false_eq_true, if_pos, state_text,
      lines_text_append, lines_text_singleton, flush_segment_text]
    simp [List.append_assoc]

/-- One paragraph wraps to lines whose texts concatenate back to the
paragraph. -/
theorem wrap_paragraph_text (font : FontVec) (scale : PxScale)
    (max_width : ℤ) (par : List Char) :
    lines_text (wrap_paragraph font scale max_width [] par) = par := by
  unfold wrap_paragraph
  by_cases h : par = []
  · simp [h, lines_text, line_text]
  · rw [if_neg h, wrap_run_eq_pairs, wrap_finish_text, wrap_run_pairs_text,
      seg_pairs_map_fst, parse_text]
    simp [state_text, lines_text, line_text]

/-! ## Recorded widths are the ceil-once measures of their runs -/

theorem flush_segment_widths (font : FontVec) (scale : PxScale) (cl : Line)
    (seg : TextSegment) (h : line_widths_ok font scale cl) :
    line_widths_ok font scale (flush_segment font scale cl seg) := by
  unfold flush_segment
  by_cases hs : seg.text = []
  · simpa [hs] using h
  · simp only [ne_eq, hs, not_false_eq_true, if_pos]
    intro p hp
    rcases List.mem_append.mp hp with h1 | h1
    · exact h p h1
    · rcases List.mem_singleton.mp h1 with rfl
      rfl

theorem wrap_step_widths (font : FontVec) (scale : PxScale) (max_width : ℤ)
    (st : WrapState) (hl : Bool) (ch : Char)
    (h1 : ∀ l ∈ st.lines, line_widths_ok font scale l)
    (h2 : line_widths_ok font scale st.current_line) :
    (∀ l ∈ (wrap_step font scale max_width st hl ch).lines,
      line_widths_ok font scale l)
    ∧ line_widths_ok font scale
        (wrap_step font scale max_width st hl ch).current_line := by
  obtain ⟨ls, cl, seg, lw⟩ := st
  unfold wrap_step
  by_cases hc : lw + measure_text_width [ch] font scale ≤ max_width
  · rw [if_pos hc]
    by_cases hh : seg.is_highlighted = hl
    · simp only [if_pos hh]
      exact ⟨h1, h2⟩
    · simp only [if_neg hh]
      exact ⟨h1, flush_segment_widths font scale cl seg h2⟩
  · rw [if_neg hc]
    constructor
    · by_cases he : flush_segment font scale cl seg = []
      · simpa [he] using h1
      · simp only [ne_eq, he, not_false_eq_true, if_pos]
        intro l hle
        rcases List.mem_append.mp hle with hm | hm
        · exact h1 l hm
        · rcases List.mem_singleton.mp hm with rfl
          exact flush_segment_widths font scale cl seg h2
    · intro p hp
      simp at hp

theorem wrap_run_pairs_widths (font : FontVec) (scale : PxScale)
    (max_width : ℤ) (st : WrapState) (ps : List (Char × Bool))
    (h1 : ∀ l ∈ st.lines, line_widths_ok font scale l)
    (h2 : line_widths_ok font scale st.current_line) :
    (∀ l ∈ (wrap_run_pairs font scale max_width st ps).lines,
      line_widths_ok font scale l)
    ∧ line_widths_ok font scale
        (wrap_run_pairs font scale max_width st ps).current_line := by
  induction ps generalizing st with
  | nil => exact ⟨h1, h2⟩
  | cons p rest ih =>
    have hstep := wrap_step_widths font scale max_width st p.2 p.1 h1 h2
    exact ih _ hstep.1 hstep.2

theorem wrap_finish_widths (font : FontVec) (scale : PxScale)
    (st : WrapState)
    (h1 : ∀ l ∈ st.lines, line_widths_ok font scale l)
    (h2 : line_widths_ok font scale st.current_line) :
    ∀ l ∈ wrap_finish font scale st, line_widths_ok font scale l := by
  unfold wrap_finish
  by_cases he : flush_segment font scale st.current_line st.current_segment = []
  · simpa [he] using h1
  · simp only [ne_eq, he, not_false_eq_true, if_pos]
    intro l hle
    rcases List.mem_append.mp hle with hm | hm
    · exact h1 l hm
    · rcases List.mem_singleton.mp hm with rfl
      exact flush_segment_widths font scale _ _ h2

theorem stub_line_widths_ok (font : FontVec) (scale : PxScale) :
    line_widths_ok font scale [(⟨[], false⟩, 0)] := by
  intro p hp
  rcases List.mem_singleton.mp hp with rfl
  simp [measure_nil]

theorem wrap_paragraph_widths (font : FontVec) (scale : PxScale)
    (max_width : ℤ) (par : List Char) :
    ∀ l ∈ wrap_paragraph font scale max_width [] par,
      line_widths_ok font scale l := by
  unfold wrap_paragraph
  by_cases h : par = []
  · simp only [h, if_pos]
    intro l hl
    rcases List.mem_singleton.mp (by simpa using hl) with rfl
    exact stub_line_widths_ok font scale
  · rw [if_neg h, wrap_run_eq_pairs]
    have hrun := wrap_run_pairs_widths font scale max_width
      ⟨[], [], ⟨[], false⟩, 0⟩ (seg_pairs (parse_highlighted_text par))
      (by intro l hl; simp at hl) (by intro p hp; simp at hp)
    exact wrap_finish_widths font scale _ hrun.1 hrun.2

/-- Every recorded width anywhere in `wrap_text`'s output is the
ceil-once measured width of its run. -/
theorem wrap_text_widths (text : List Char) (font : FontVec)
    (scale : PxScale) (max_width : ℤ) :
    ∀ l ∈ wrap_text text font scale max_width,
      line_widths_ok font scale l := by
  rw [wrap_text_eq_flat]
  simp only []
  by_cases hall : (str_lines text).flatMap
      (wrap_paragraph font scale max_width []) = []
  · rw [if_pos hall]
    intro l hl
    rcases List.mem_singleton.mp hl with rfl
    exact stub_line_widths_ok font scale
  · rw [if_neg hall]
    intro l hl
    rcases List.mem_flatMap.mp hl with ⟨par, _, hmem⟩
    exact wrap_paragraph_widths font scale max_width par l hmem

/-! ## Claim C8: width accumulation is ceil-once -/

/-- **C8.**  `measure_text_width` sums per-character advances and applies
the ceiling once to the whole sum, so a string never measures more than
the sum of its characters' individual measures; and during wrapping every
recorded run width is exactly this ceil-once measure of the run's text. -/
theorem C8_ceil_once (font : FontVec) (scale : PxScale) :
    (∀ s : List Char, measure_text_width s font scale ≤
      (s.map fun c => measure_text_width [c] font scale).sum)
  ∧ (∀ text max_width, ∀ line ∈ wrap_text text font scale max_width,
      ∀ p ∈ line, p.2 = measure_text_width p.1.text font scale) := by
  constructor
  · intro s
    induction s with
    | nil => simp [measure_nil]
    | cons c cs ih =>
      have h1 : measure_text_width (c :: cs) font scale ≤
          measure_text_width [c] font scale +
            measure_text_width cs font scale := by
        simpa using measure_append_le font scale [c] cs
      calc measure_text_width (c :: cs) font scale
          ≤ measure_text_width [c] font scale +
              measure_text_width cs font scale := h1
        _ ≤ measure_text_width [c] font scale +
              (cs.map fun c => measure_text_width [c] font scale).sum := by
            exact add_le_add_left ih _
        _ = ((c :: cs).map fun c => measure_text_width [c] font scale).sum := by
            simp
  · intro text max_width line hline p hp
    exact wrap_text_widths text font scale max_width line hline p hp

/-- Witness for C8 on a concrete two-character line. -/
theorem C8_witness :
    measure_text_width "ab".toList testFont (PxScale.from' 2) ≤
      (("ab".toList.map fun c =>
        measure_text_width [c] testFont (PxScale.from' 2)).sum)
    ∧ (4 : ℤ) = measure_text_width "ab".toList testFont (PxScale.from' 2) := by
  have hw : wrap_text "ab".toList testFont (PxScale.from' 2) 5 =
      [[(⟨"ab".toList, false⟩, 4)]] := by
    simp [wrap_text, str_lines, split_inclusive_nl, lines_map, wrap_paragraph,
      parse_highlighted_text, parse_step, wrap_run, wrap_finish, flush_segment,
      wrap_step, measure_text_width, testFont, FontVec.upm, PxScale.from']
  constructor
  · exact (C8_ceil_once testFont (PxScale.from' 2)).1 "ab".toList
  · exact (C8_ceil_once testFont (PxScale.from' 2)).2 "ab".toList 5
      [(⟨"ab".toList, false⟩, 4)]
      (by rw [hw]; exact List.mem_singleton.mpr rfl)
      (⟨"ab".toList, false⟩, 4) (List.mem_singleton.mpr rfl)

/-! ## Claim C2: wrapped lines respect the width bound -/

theorem line_total_width_append (a b : Line) :
    line_total_width (a ++ b) = line_total_width a + line_total_width b := by
  simp [line_total_width]

theorem flush_segment_total (font : FontVec) (scale : PxScale) (cl : Line)
    (seg : TextSegment) :
    line_total_width (flush_segment font scale cl seg) =
      line_total_width cl + measure_text_width seg.text font scale := by
  unfold flush_segment
  by_cases h : seg.text = []
  · simp [h, measure_nil]
  · simp [h, line_total_width_append, line_total_width]

theorem wrap_step_within (font : FontVec) (scale : PxScale) (max_width : ℤ)
    (st : WrapState) (hl : Bool) (ch : Char)
    (hch : measure_text_width [ch] font scale ≤ max_width)
    (h : widths_within font scale max_width st) :
    widths_within font scale max_width
      (wrap_step font scale max_width st hl ch) := by
  obtain ⟨ls, cl, seg, lw⟩ := st
  obtain ⟨h1, h2, h3⟩ := h
  have h1' : ∀ l ∈ ls, line_total_width l ≤ max_width := h1
  have h2' : line_total_width cl +
      measure_text_width seg.text font scale ≤ lw := h2
  have h3' : lw ≤ max_width := h3
  unfold wrap_step
  by_cases hc : lw + measure_text_width [ch] font scale ≤ max_width
  · rw [if_pos hc]
    by_cases hh : seg.is_highlighted = hl
    · rw [if_pos hh]
      refine ⟨h1', ?_, hc⟩
      show line_total_width cl +
          measure_text_width (seg.text ++ [ch]) font scale ≤
          lw + measure_text_width [ch] font scale
      have hsub := measure_append_le font scale seg.text [ch]
      omega
    · rw [if_neg hh]
      refine ⟨h1', ?_, hc⟩
      show line_total_width (flush_segment font scale cl seg) +
          measure_text_width [ch] font scale ≤
          lw + measure_text_width [ch] font scale
      have := flush_segment_total font scale cl seg
      omega
  · rw [if_neg hc]
    refine ⟨?_, ?_, hch⟩
    · show ∀ l ∈ (if flush_segment font scale cl seg ≠ [] then
          ls ++ [flush_segment font scale cl seg] else ls),
        line_total_width l ≤ max_width
      by_cases he : flush_segment font scale cl seg = []
      · simpa [he] using h1'
      · simp only [ne_eq, he, not_false_eq_true, if_pos]
        intro l hm
        rcases List.mem_append.mp hm with hm | hm
        · exact h1' l hm
        · rcases List.mem_singleton.mp hm with rfl
          have := flush_segment_total font scale cl seg
          omega
    · show line_total_width [] +
          measure_text_width [ch] font scale ≤
          measure_text_width [ch] font scale
      simp [line_total_width]

theorem wrap_run_pairs_within (font : FontVec) (scale : PxScale)
    (max_width : ℤ) (ps : List (Char × Bool))
    (hps : ∀ p ∈ ps, measure_text_width [p.1] font scale ≤ max_width)
    (st : WrapState) (h : widths_within font scale max_width st) :
    widths_within font scale max_width
      (wrap_run_pairs font scale max_width st ps) := by
  induction ps generalizing st with
  | nil => exact h
  | cons p rest ih =>
    exact ih (fun q hq => hps q (List.mem_cons_of_mem p hq)) _
      (wrap_step_within font scale max_width st p.2 p.1
        (hps p (List.mem_cons_self p rest)) h)

theorem wrap_finish_within (font : FontVec) (scale : PxScale)
    (max_width : ℤ) (st : WrapState)
    (h : widths_within font scale max_width st) :
    ∀ l ∈ wrap_finish font scale st, line_total_width l ≤ max_width := by
  obtain ⟨h1, h2, h3⟩ := h
  unfold wrap_finish
  by_cases he : flush_segment font scale st.current_line st.current_segment = []
  · simpa [he] using h1
  · simp only [ne_eq, he, not_false_eq_true, if_pos]
    intro l hm
    rcases List.mem_append.mp hm with hm | hm
    · exact h1 l hm
    · rcases List.mem_singleton.mp hm with rfl
      have := flush_segment_total font scale st.current_line st.current_segment
      omega

theorem pair_char_mem (par : List Char) (p : Char × Bool)
    (hp : p ∈ seg_pairs (parse_highlighted_text par)) : p.1 ∈ par := by
  have h1 : p.1 ∈ (seg_pairs (parse_highlighted_text par)).map Prod.fst :=
    List.mem_map.mpr ⟨p, hp, rfl⟩
  rwa [seg_pairs_map_fst, parse_text] at h1

theorem wrap_paragraph_within (font : FontVec) (scale : PxScale)
    (max_width : ℤ) (par : List Char) (hmw : 0 ≤ max_width)
    (hch : ∀ c ∈ par, measure_text_width [c] font scale ≤ max_width) :
    ∀ l ∈ wrap_paragraph font scale max_width [] par,
      line_total_width l ≤ max_width := by
  unfold wrap_paragraph
  by_cases h : par = []
  · simp only [h, if_pos]
    intro l hl
    rcases List.mem_singleton.mp (by simpa using hl) with rfl
    simp [line_total_width, hmw]
  · rw [if_neg h, wrap_run_eq_pairs]
    refine wrap_finish_within font scale max_width _
      (wrap_run_pairs_within font scale max_width _
        (fun p hp => hch p.1 (pair_char_mem par p hp)) _ ?_)
    refine ⟨by intro l hl; simp at hl, ?_, hmw⟩
    simp [line_total_width, measure_nil]

/-- Running width stays nonnegative when all character widths are. -/
theorem wrap_run_pairs_lw_nonneg (font : FontVec) (scale : PxScale)
    (max_width : ℤ) (ps : List (Char × Bool))
    (hps : ∀ p ∈ ps, 0 ≤ measure_text_width [p.1] font scale)
    (st : WrapState) (h : 0 ≤ st.line_width) :
    0 ≤ (wrap_run_pairs font scale max_width st ps).line_width := by
  induction ps generalizing st with
  | nil => exact h
  | cons p rest ih =>
    rw [wrap_run_pairs, List.foldl_cons, ← wrap_run_pairs]
    refine ih (fun q hq => hps q (List.mem_cons_of_mem p hq)) _ ?_
    have hp := hps p (List.mem_cons_self p rest)
    obtain ⟨ls, cl, seg, lw⟩ := st
    have h' : 0 ≤ lw := h
    show 0 ≤ (wrap_step font scale max_width ⟨ls, cl, seg, lw⟩ p.2 p.1).line_width
    unfold wrap_step
    by_cases hc : lw + measure_text_width [p.1] font scale ≤ max_width
    · rw [if_pos hc]
      by_cases hh : seg.is_highlighted = p.2
      · rw [if_pos hh]
        show 0 ≤ lw + measure_text_width [p.1] font scale
        omega
      · rw [if_neg hh]
        show 0 ≤ lw + measure_text_width [p.1] font scale
        omega
    · rw [if_neg hc]
      exact hp

/-- Finished lines persist through the rest of the loop. -/
theorem wrap_run_pairs_lines_mono (font : FontVec) (scale : PxScale)
    (max_width : ℤ) (ps : List (Char × Bool)) (st : WrapState) (l : Line)
    (h : l ∈ st.lines) :
    l ∈ (wrap_run_pairs font scale max_width st ps).lines := by
  induction ps generalizing st with
  | nil => exact h
  | cons p rest ih =>
    rw [wrap_run_pairs, List.foldl_cons, ← wrap_run_pairs]
    refine ih _ ?_
    obtain ⟨ls, cl, seg, lw⟩ := st
    have h' : l ∈ ls := h
    show l ∈ (wrap_step font scale max_width ⟨ls, cl, seg, lw⟩ p.2 p.1).lines
    unfold wrap_step
    by_cases hc : lw + measure_text_width [p.1] font scale ≤ max_width
    · rw [if_pos hc]
      by_cases hh : seg.is_highlighted = p.2
      · rw [if_pos hh]
        exact h'
      · rw [if_neg hh]
        exact h'
    · rw [if_neg hc]
      show l ∈ (if flush_segment font scale cl seg ≠ [] then
          ls ++ [flush_segment font scale cl seg] else ls)
      by_cases he : flush_segment font scale cl seg = [] <;>
        simp [he, List.mem_append, h']

theorem wrap_finish_lines_mono (font : FontVec) (scale : PxScale)
    (st : WrapState) (l : Line) (h : l ∈ st.lines) :
    l ∈ wrap_finish font scale st := by
  unfold wrap_finish
  by_cases he : flush_segment font scale st.current_line st.current_segment = []
  · simpa [he] using h
  · simp [he, List.mem_append, h]

/-- From a state holding exactly an oversized character with empty open
line, the rest of the loop emits that character alone on a line. -/
theorem oversized_alone_from_state (font : FontVec) (scale : PxScale)
    (max_width : ℤ) (ps : List (Char × Bool)) (c : Char) (hl : Bool)
    (ls : List Line) (lw : ℤ) (hlw : max_width < lw)
    (hps : ∀ p ∈ ps, 0 ≤ measure_text_width [p.1] font scale) :
    [(⟨[c], hl⟩, measure_text_width [c] font scale)] ∈
      wrap_finish font scale
        (wrap_run_pairs font scale max_width ⟨ls, [], ⟨[c], hl⟩, lw⟩ ps) := by
  cases ps with
  | nil =>
    unfold wrap_run_pairs
    simp only [List.foldl_nil]
    unfold wrap_finish flush_segment
    simp
  | cons p rest =>
    rw [wrap_run_pairs, List.foldl_cons, ← wrap_run_pairs]
    have hp := hps p (List.mem_cons_self p rest)
    have hover : ¬(lw + measure_text_width [p.1] font scale ≤ max_width) := by
      omega
    rw [show wrap_step font scale max_width ⟨ls, [], ⟨[c], hl⟩, lw⟩ p.2 p.1 =
        ⟨ls ++ [[(⟨[c], hl⟩, measure_text_width [c] font scale)]], [],
          ⟨[p.1], p.2⟩, measure_text_width [p.1] font scale⟩ from by
      unfold wrap_step
      rw [if_neg hover]
      unfold flush_segment
      simp]
    exact wrap_finish_lines_mono font scale _ _
      (wrap_run_pairs_lines_mono font scale max_width rest _ _
        (by simp))

/-- An oversized character in a paragraph is emitted alone on its own
line with its measured width. -/
theorem wrap_paragraph_oversized (font : FontVec) (scale : PxScale)
    (max_width : ℤ) (par : List Char) (hx : 0 ≤ scale.x) (c : Char)
    (hc : c ∈ par) (hover : max_width < measure_text_width [c] font scale) :
    ∃ hl, [(⟨[c], hl⟩, measure_text_width [c] font scale)] ∈
      wrap_paragraph font scale max_width [] par := by
  have hpar : par ≠ [] := fun h => by simp [h] at hc
  have hc' : c ∈ (seg_pairs (parse_highlighted_text par)).map Prod.fst := by
    rw [seg_pairs_map_fst, parse_text]
    exact hc
  rcases List.mem_map.mp hc' with ⟨p, hp, hfst⟩
  rcases List.mem_iff_append.mp hp with ⟨ps₁, ps₂, hsplit⟩
  obtain ⟨c', hl⟩ := p
  simp only at hfst
  rw [hfst] at hsplit
  refine ⟨hl, ?_⟩
  unfold wrap_paragraph
  rw [if_neg hpar, wrap_run_eq_pairs, hsplit, wrap_run_pairs_append]
  rw [wrap_run_pairs, List.foldl_cons, ← wrap_run_pairs]
  have hnonneg : ∀ p ∈ ps₁, 0 ≤ measure_text_width [p.1] font scale :=
    fun p _ => char_width_nonneg font scale hx p.1
  have hlw : 0 ≤ (wrap_run_pairs font scale max_width
      ⟨[], [], ⟨[], false⟩, 0⟩ ps₁).line_width :=
    wrap_run_pairs_lw_nonneg font scale max_width ps₁ hnonneg _ le_rfl
  set st₁ := wrap_run_pairs font scale max_width ⟨[], [], ⟨[], false⟩, 0⟩ ps₁
  have hover2 : ¬(st₁.line_width + measure_text_width [c] font scale ≤
      max_width) := by omega
  obtain ⟨ls₁, cl₁, seg₁, lw₁⟩ := st₁
  rw [show wrap_step font scale max_width ⟨ls₁, cl₁, seg₁, lw₁⟩ hl c =
      ⟨(if flush_segment font scale cl₁ seg₁ ≠ [] then
          ls₁ ++ [flush_segment font scale cl₁ seg₁] else ls₁), [],
        ⟨[c], hl⟩, measure_text_width [c] font scale⟩ from by
    unfold wrap_step
    rw [if_neg hover2]]
  exact oversized_alone_from_state font scale max_width ps₂ c hl _ _
    (by simpa using hover)
    (fun p _ => char_width_nonneg font scale hx p.1)

/-- Lines of one paragraph are lines of the whole wrap. -/
theorem wrap_text_mem_of_paragraph (text : List Char) (font : FontVec)
    (scale : PxScale) (max_width : ℤ) (par : List Char)
    (hpar : par ∈ str_lines text) (l : Line)
    (hl : l ∈ wrap_paragraph font scale max_width [] par) :
    l ∈ wrap_text text font scale max_width := by
  rw [wrap_text_eq_flat]
  simp only []
  have hmem : l ∈ (str_lines text).flatMap
      (wrap_paragraph font scale max_width []) :=
    List.mem_flatMap.mpr ⟨par, hpar, hl⟩
  rw [if_neg (fun hempty => by rw [hempty] at hmem; simp at hmem)]
  exact hmem

/-- Every wrapped line's recorded total fits the bound once every
character does. -/
theorem wrap_text_width_le (text : List Char) (font : FontVec)
    (scale : PxScale) (max_width : ℤ) (hmw : 0 ≤ max_width)
    (hch : ∀ par ∈ str_lines text, ∀ c ∈ par,
      measure_text_width [c] font scale ≤ max_width) :
    ∀ line ∈ wrap_text text font scale max_width,
      line_total_width line ≤ max_width := by
  intro line hline
  rw [wrap_text_eq_flat] at hline
  simp only [] at hline
  by_cases hall : (str_lines text).flatMap
      (wrap_paragraph font scale max_width []) = []
  · rw [if_pos hall] at hline
    rcases List.mem_singleton.mp hline with rfl
    simp [line_total_width, hmw]
  · rw [if_neg hall] at hline
    rcases List.mem_flatMap.mp hline with ⟨par, hpar, hmem⟩
    exact wrap_paragraph_within font scale max_width par hmw
      (hch par hpar) line hmem

/-- An oversized character is still emitted, alone on its own line. -/
theorem wrap_text_oversized (text : List Char) (font : FontVec)
    (scale : PxScale) (max_width : ℤ) (hx : 0 ≤ scale.x)
    (par : List Char) (hpar : par ∈ str_lines text) (c : Char) (hc : c ∈ par)
    (hover : max_width < measure_text_width [c] font scale) :
    ∃ hl, [(⟨[c], hl⟩, measure_text_width [c] font scale)] ∈
      wrap_text text font scale max_width := by
  rcases wrap_paragraph_oversized font scale max_width par hx c hc hover
    with ⟨hl, hmem⟩
  exact ⟨hl, wrap_text_mem_of_paragraph text font scale max_width par hpar
    _ hmem⟩

/-- **C2.**  With a nonnegative max width at least every character's
measured width, every wrapped line's recorded total fits the bound; and
with a nonnegative horizontal scale, a character measuring wider than the
bound is still emitted, alone on its own line, never dropped. -/
theorem C2_wrap_width_bound (text : List Char) (font : FontVec)
    (scale : PxScale) (max_width : ℤ) :
    ((0 ≤ max_width →
      (∀ par ∈ str_lines text, ∀ c ∈ par,
        measure_text_width [c] font scale ≤ max_width) →
      ∀ line ∈ wrap_text text font scale max_width,
        line_total_width line ≤ max_width))
  ∧ (0 ≤ scale.x →
      ∀ par ∈ str_lines text, ∀ c ∈ par,
        max_width < measure_text_width [c] font scale →
      ∃ hl, [(⟨[c], hl⟩, measure_text_width [c] font scale)] ∈
        wrap_text text font scale max_width) :=
  ⟨fun hmw hch => wrap_text_width_le text font scale max_width hmw hch,
    fun hx par hpar c hc hover =>
      wrap_text_oversized text font scale max_width hx par hpar c hc hover⟩

/-- Witness for C2: every width-2 character fits a bound of 4, and a
width-2 character overflows a bound of 1 yet is emitted alone. -/
theorem C2_witness :
    (∀ line ∈ wrap_text "abc".toList testFont (PxScale.from' 2) 4,
      line_total_width line ≤ 4)
    ∧ ∃ hl, [(⟨['a'], hl⟩, measure_text_width ['a'] testFont (PxScale.from' 2))] ∈
        wrap_text "ab".toList testFont (PxScale.from' 2) 1 := by
  have hmeas : ∀ ch : Char,
      measure_text_width [ch] testFont (PxScale.from' 2) = 2 := by
    intro ch
    simp [measure_text_width, testFont, FontVec.upm, PxScale.from']
  constructor
  · refine (C2_wrap_width_bound "abc".toList testFont (PxScale.from' 2) 4).1
      (by norm_num) ?_
    intro par hpar c hc
    rw [hmeas c]
    norm_num
  · refine (C2_wrap_width_bound "ab".toList testFont (PxScale.from' 2) 1).2
      (by norm_num [PxScale.from']) "ab".toList ?_ 'a' (by decide) ?_
    · have hstr : str_lines "ab".toList = ["ab".toList] := by
        simp [str_lines, split_inclusive_nl, lines_map]
      rw [hstr]
      simp
    · rw [hmeas 'a']
      norm_num

/-! ## `str::lines` on newline-free text -/

theorem split_inclusive_nl_no_nl (s : List Char) (h : '\n' ∉ s)
    (hne : s ≠ []) : split_inclusive_nl s = [s] := by
  induction s with
  | nil => exact absurd rfl hne
  | cons c rest ih =>
    have hc : c ≠ '\n' := fun hc => h (hc ▸ List.mem_cons_self c rest)
    have hrest : '\n' ∉ rest := fun hr => h (List.mem_cons_of_mem c hr)
    rw [split_inclusive_nl, if_neg hc]
    by_cases hr : rest = []
    · subst hr
      rfl
    · rw [ih hrest hr]

theorem lines_map_no_nl (s : List Char) (h : '\n' ∉ s) : lines_map s = s := by
  unfold lines_map
  rw [if_neg]
  intro hlast
  exact h (List.mem_of_mem_getLast? hlast)

theorem str_lines_no_nl (s : List Char) (h : '\n' ∉ s) :
    str_lines s = if s = [] then [] else [s] := by
  by_cases hne : s = []
  · subst hne
    rfl
  · rw [if_neg hne]
    unfold str_lines
    rw [split_inclusive_nl_no_nl s h hne]
    simp [lines_map_no_nl s h]

/-! ## Claim C3: wrapping loses and duplicates no character -/

/-- **C3.**  For a single paragraph (no embedded newlines), any font,
scale and positive max width, concatenating the run texts of all wrapped
lines, in order, reproduces the input exactly (highlight markers
included, since the parser keeps them in the segment texts). -/
theorem C3_wrap_roundtrip (text : List Char) (font : FontVec)
    (scale : PxScale) (max_width : ℤ) (hn : '\n' ∉ text)
    (hmw : 1 ≤ max_width) :
    (wrap_text text font scale max_width).flatMap
      (fun l => l.flatMap fun p => p.1.text) = text := by
  have hflat := wrap_text_eq_flat text font scale max_width
  rw [str_lines_no_nl text hn] at hflat
  by_cases hne : text = []
  · subst hne
    rw [hflat]
    rfl
  · rw [if_neg hne] at hflat
    have hpar := wrap_paragraph_text font scale max_width text
    simp only [List.flatMap_cons, List.flatMap_nil, List.append_nil] at hflat
    have hnonempty : wrap_paragraph font scale max_width [] text ≠ [] := by
      intro hempty
      rw [hempty] at hpar
      exact hne (hpar.symm.trans rfl)
    rw [if_neg hnonempty] at hflat
    rw [hflat]
    exact hpar

/-- Witness for C3 on a concrete paragraph with markers. -/
theorem C3_witness :
    ('\n' ∉ "a[b]c".toList ∧ (1 : ℤ) ≤ 4) ∧
    (wrap_text "a[b]c".toList testFont (PxScale.from' 2) 4).flatMap
      (fun l => l.flatMap fun p => p.1.text) = "a[b]c".toList :=
  ⟨⟨by decide, by norm_num⟩,
    C3_wrap_roundtrip "a[b]c".toList testFont (PxScale.from' 2) 4
      (by decide) (by norm_num)⟩

/-! ## Claim C7: the error surface of `generate_image` -/

/-- A resolved character always has an image map: the `.unwrap()` after
`get_character` succeeded cannot fire. -/
theorem get_character_images_of_get_character (dm : DataManager)
    (character_id : String) (config : CharacterConfig)
    (h : get_character dm character_id = some config) :
    ∃ imgs, get_character_images dm character_id = some imgs := by
  unfold get_character at h
  unfold get_character_images
  rw [h]
  exact ⟨_, rfl⟩

/-- **C7 (amended).**  `generate_image` never panics (in particular the
`get_character_images` unwrap is safe once the character resolved), and
it returns an error exactly for the resource-missing conditions — unknown
character id, no background available, background decode failure, font
load failure; for every input passing those four gates it returns an
image. -/
theorem C7_generate_image_errors (o : RenderOracles) (dm : DataManager)
    (character_id : String) (text : List Char) (max_size : ℕ) :
    generate_image o dm character_id text max_size ≠ GenResult.panicked
  ∧ (generate_image o dm character_id text max_size =
      GenResult.err .characterNotFound ↔ get_character dm character_id = none)
  ∧ (∀ config, get_character dm character_id = some config →
      (generate_image o dm character_id text max_size =
          GenResult.err .noBackgrounds ↔ get_backgrounds dm config = none)
      ∧ (∀ backgrounds, get_backgrounds dm config = some backgrounds →
          (generate_image o dm character_id text max_size =
              GenResult.err .backgroundLoadFailed ↔
            o.load_random_image backgrounds = none)
          ∧ (∀ img, o.load_random_image backgrounds = some img →
              (generate_image o dm character_id text max_size =
                  GenResult.err .fontLoadFailed ↔
                o.load_font (get_font_path dm config) = none)
              ∧ (∀ font, o.load_font (get_font_path dm config) = some font →
                  ∃ out, generate_image o dm character_id text max_size =
                    GenResult.ok out)))) := by
  cases hget : get_character dm character_id with
  | none =>
    have hres : generate_image o dm character_id text max_size =
        GenResult.err .characterNotFound := by
      simp only [generate_image, hget]
    refine ⟨by rw [hres]; simp, by rw [hres]; simp, ?_⟩
    intro config hconfig
    exact absurd hconfig (by simp)
  | some config =>
    cases hbg : get_backgrounds dm config with
    | none =>
      have hres : generate_image o dm character_id text max_size =
          GenResult.err .noBackgrounds := by
        simp only [generate_image, hget, hbg]
      refine ⟨by rw [hres]; simp, by rw [hres]; simp, ?_⟩
      intro config' hconfig'
      obtain rfl := Option.some.inj hconfig'
      refine ⟨by rw [hres, hbg]; simp, ?_⟩
      intro backgrounds hbgs
      rw [hbg] at hbgs
      exact absurd hbgs (by simp)
    | some backgrounds =>
      cases hload : o.load_random_image backgrounds with
      | none =>
        have hres : generate_image o dm character_id text max_size =
            GenResult.err .backgroundLoadFailed := by
          simp only [generate_image, hget, hbg, hload]
        refine ⟨by rw [hres]; simp, by rw [hres]; simp, ?_⟩
        intro config' hconfig'
        obtain rfl := Option.some.inj hconfig'
        refine ⟨by rw [hres, hbg]; simp, ?_⟩
        intro backgrounds' hbgs'
        obtain rfl := Option.some.inj (hbg ▸ hbgs')
        refine ⟨by rw [hres, hload]; simp, ?_⟩
        intro img himg
        rw [hload] at himg
        exact absurd himg (by simp)
      | some img =>
        cases hfont : o.load_font (get_font_path dm config) with
        | none =>
          have hres : generate_image o dm character_id text max_size =
              GenResult.err .fontLoadFailed := by
            simp only [generate_image, hget, hbg, hload, hfont]
          refine ⟨by rw [hres]; simp, by rw [hres]; simp, ?_⟩
          intro config' hconfig'
          obtain rfl := Option.some.inj hconfig'
          refine ⟨by rw [hres, hbg]; simp, ?_⟩
          intro backgrounds' hbgs'
          obtain rfl := Option.some.inj (hbg ▸ hbgs')
          refine ⟨by rw [hres, hload]; simp, ?_⟩
          intro img' himg'
          refine ⟨by rw [hres, hfont]; simp, ?_⟩
          intro font hfont'
          rw [hfont] at hfont'
          exact absurd hfont' (by simp)
        | some font =>
          obtain ⟨imgs, himgs⟩ :=
            get_character_images_of_get_character dm character_id config hget
          have hres : ∃ out,
              generate_image o dm character_id text max_size =
                GenResult.ok out := by
            simp only [generate_image, hget, hbg, hload, hfont, himgs]
            exact ⟨_, rfl⟩
          obtain ⟨out, hout⟩ := hres
          refine ⟨by rw [hout]; simp, by rw [hout]; simp, ?_⟩
          intro config' hconfig'
          obtain rfl := Option.some.inj hconfig'
          refine ⟨by rw [hout, hbg]; simp, ?_⟩
          intro backgrounds' hbgs'
          obtain rfl := Option.some.inj (hbg ▸ hbgs')
          refine ⟨by rw [hout, hload]; simp, ?_⟩
          intro img' himg'
          refine ⟨by rw [hout, hfont]; simp, ?_⟩
          intro font' hfont'
          exact ⟨out, hout⟩

/-- Counterexample to C7 as stated: with oracles whose backgrounds all
decode and whose fonts all load, an unknown character id still makes
`generate_image` fail — a third failure condition beyond the two the
claim allows. -/
theorem C7_counterexample :
    generate_image okOracles emptyDM "alice" "hi".toList 0 =
      GenResult.err .characterNotFound
    ∧ (∀ paths, okOracles.load_random_image paths ≠ none)
    ∧ (∀ p, okOracles.load_font p ≠ none) := by
  refine ⟨rfl, ?_, ?_⟩
  · intro paths
    simp [okOracles]
  · intro p
    simp [okOracles]

/-- Witness for C7 on a populated data manager: all four gates pass and
an image is produced. -/
theorem C7_witness :
    ∃ out, generate_image okOracles demoDM "demo" "hi".toList 0 =
      GenResult.ok out := by
  have h := C7_generate_image_errors okOracles demoDM "demo" "hi".toList 0
  have hget : get_character demoDM "demo" = some demoConfig := rfl
  have hbgs : get_backgrounds demoDM demoConfig =
      some ["backgrounds/bg1.png"] := by
    unfold get_backgrounds demoDM demoConfig
    simp [sort_paths, dedup_paths]
  exact ((((h.2.2 demoConfig hget).2 ["backgrounds/bg1.png"] hbgs).2
    ⟨1, 1, fun _ _ => BLACK⟩ rfl).2 testFont rfl)

/-! ## Monotonicity of the greedy line count -/

theorem take_line_rest_eq_drop (W : ℤ) (acc : ℤ) (ws : List ℤ) :
    (take_line W acc ws).2 = ws.drop (take_line W acc ws).1.length := by
  induction ws generalizing acc with
  | nil => simp [take_line]
  | cons w rest ih =>
    rw [take_line]
    by_cases h : acc + w ≤ W
    · simp only [if_pos h]
      simpa using ih (acc + w)
    · simp [if_neg h]

theorem take_line_len_le_of_le (W : ℤ) {ws ws' : List ℤ}
    (h : List.Forall₂ (· ≤ ·) ws ws') :
    ∀ {acc acc' : ℤ}, acc ≤ acc' →
      (take_line W acc' ws').1.length ≤ (take_line W acc ws).1.length := by
  induction h with
  | nil => intro acc acc' _; simp [take_line]
  | cons hw hrest ih =>
    rename_i w w' r r'
    intro acc acc' hacc
    rw [take_line, take_line]
    by_cases h2 : acc' + w' ≤ W
    · have h1 : acc + w ≤ W := le_trans (add_le_add hacc hw) h2
      simp only [if_pos h1, if_pos h2]
      simpa using ih (add_le_add hacc hw)
    · simp [if_neg h2]

theorem take_line_len_mono_W {W W' : ℤ} (hW : W ≤ W') :
    ∀ (ws : List ℤ) (acc : ℤ),
      (take_line W acc ws).1.length ≤ (take_line W' acc ws).1.length := by
  intro ws
  induction ws with
  | nil => intro acc; simp [take_line]
  | cons w rest ih =>
    intro acc
    rw [take_line, take_line]
    by_cases h : acc + w ≤ W
    · have h' : acc + w ≤ W' := le_trans h hW
      simp only [if_pos h, if_pos h']
      simpa using ih (acc + w)
    · simp only [if_neg h]
      simp

theorem glen_cons (W w : ℤ) (rest : List ℤ) :
    glen W (w :: rest) = glen W (take_line W w rest).2 + 1 := by
  rw [glen]

theorem glen_pos (W w : ℤ) (rest : List ℤ) : 1 ≤ glen W (w :: rest) := by
  rw [glen_cons]
  omega

theorem glen_nil (W : ℤ) : glen W [] = 0 := by
  rw [glen]

/-- Dropping the head of the width list cannot increase the greedy line
count (widths nonnegative). -/
theorem glen_tail_le (W : ℤ) :
    ∀ n (ws : List ℤ), ws.length ≤ n → (∀ w ∈ ws, 0 ≤ w) →
      glen W ws.tail ≤ glen W ws := by
  intro n
  induction n with
  | zero =>
    intro ws hlen _
    rw [List.length_eq_zero.mp (Nat.le_zero.mp hlen)]
    simp
  | succ n ih =>
    have hdrop : ∀ (u : List ℤ), u.length ≤ n → (∀ w ∈ u, 0 ≤ w) →
        ∀ i j : ℕ, i ≤ j → glen W (u.drop j) ≤ glen W (u.drop i) := by
      intro u hu hnn i j hij
      induction j with
      | zero => rw [Nat.le_zero.mp hij]
      | succ j ihj =>
        rcases Nat.lt_or_ge i (j + 1) with hlt | hge
        · refine le_trans ?_ (ihj (Nat.lt_succ_iff.mp hlt))
          rw [← List.tail_drop]
          refine ih (u.drop j) ?_ ?_
          · rw [List.length_drop]
            omega
          · intro w hw
            exact hnn w (List.mem_of_mem_drop hw)
        · rw [le_antisymm hij hge]
    intro ws hlen hnn
    rcases ws with _ | ⟨w, ws⟩
    · simp
    rcases ws with _ | ⟨w₂, r₂⟩
    · rw [List.tail_cons, glen_nil]
      omega
    by_cases h : w + w₂ ≤ W
    · have ht : (take_line W w (w₂ :: r₂)).2 = (take_line W (w + w₂) r₂).2 := by
        rw [take_line]
        simp [if_pos h]
      have hw0 : 0 ≤ w := hnn w (by simp)
      have hm : (take_line W (w + w₂) r₂).1.length ≤
          (take_line W w₂ r₂).1.length :=
        take_line_len_le_of_le W
          (List.forall₂_same.mpr (fun a _ => le_refl a)) (by omega)
      rw [List.tail_cons, glen_cons, glen_cons, ht,
        take_line_rest_eq_drop W (w + w₂) r₂, take_line_rest_eq_drop W w₂ r₂]
      have hlen₂ : r₂.length ≤ n := by
        simp only [List.length_cons] at hlen
        omega
      have := hdrop r₂ hlen₂ (fun x hx => hnn x (by simp [hx])) _ _ hm
      omega
    · have ht : (take_line W w (w₂ :: r₂)).2 = w₂ :: r₂ := by
        rw [take_line]
        simp [if_neg h]
      rw [List.tail_cons, glen_cons W w (w₂ :: r₂), ht]
      omega

/-- Deeper suffixes have at most as many greedy lines. -/
theorem glen_drop_le_glen (W : ℤ) (ws : List ℤ) (hnn : ∀ w ∈ ws, 0 ≤ w)
    {i j : ℕ} (hij : i ≤ j) : glen W (ws.drop j) ≤ glen W (ws.drop i) := by
  induction j with
  | zero => rw [Nat.le_zero.mp hij]
  | succ j ihj =>
    rcases Nat.lt_or_ge i (j + 1) with hlt | hge
    · refine le_trans ?_ (ihj (Nat.lt_succ_iff.mp hlt))
      rw [← List.tail_drop]
      exact glen_tail_le W (ws.drop j).length (ws.drop j) le_rfl
        (fun w hw => hnn w (List.mem_of_mem_drop hw))
    · rw [le_antisymm hij hge]

/-- The greedy line count is monotone under pointwise width growth. -/
theorem glen_mono_widths (W : ℤ) :
    ∀ n (ws ws' : List ℤ), ws.length ≤ n →
      List.Forall₂ (· ≤ ·) ws ws' → (∀ w ∈ ws', 0 ≤ w) →
      glen W ws ≤ glen W ws' := by
  intro n
  induction n with
  | zero =>
    intro ws ws' hlen h _
    rw [List.length_eq_zero.mp (Nat.le_zero.mp hlen)] at h ⊢
    cases h
    simp
  | succ n ih =>
    intro ws ws' hlen h hnn
    cases h with
    | nil => simp
    | cons hw hrest =>
      rename_i w w' r r'
      rw [glen_cons, glen_cons, take_line_rest_eq_drop, take_line_rest_eq_drop]
      have hk : (take_line W w' r').1.length ≤ (take_line W w r).1.length :=
        take_line_len_le_of_le W hrest hw
      have hlen' : (r.drop (take_line W w r).1.length).length ≤ n := by
        rw [List.length_drop]
        simp only [List.length_cons] at hlen
        omega
      have h1 : glen W (r.drop (take_line W w r).1.length) ≤
          glen W (r'.drop (take_line W w r).1.length) := by
        refine ih _ _ hlen' (List.forall₂_drop _ hrest) ?_
        intro x hx
        exact hnn x (List.mem_cons_of_mem _ (List.mem_of_mem_drop hx))
      have h2 : glen W (r'.drop (take_line W w r).1.length) ≤
          glen W (r'.drop (take_line W w' r').1.length) :=
        glen_drop_le_glen W r'
          (fun x hx => hnn x (List.mem_cons_of_mem _ hx)) hk
      omega

/-- The greedy line count is antitone in the capacity. -/
theorem glen_anti_capacity {W W' : ℤ} (hW : W ≤ W') :
    ∀ n (ws : List ℤ), ws.length ≤ n → (∀ w ∈ ws, 0 ≤ w) →
      glen W' ws ≤ glen W ws := by
  intro n
  induction n with
  | zero =>
    intro ws hlen _
    rw [List.length_eq_zero.mp (Nat.le_zero.mp hlen)]
    simp [glen_nil]
  | succ n ih =>
    intro ws hlen hnn
    rcases ws with _ | ⟨w, r⟩
    · simp [glen_nil]
    rw [glen_cons, glen_cons, take_line_rest_eq_drop, take_line_rest_eq_drop]
    have hk : (take_line W w r).1.length ≤ (take_line W' w r).1.length :=
      take_line_len_mono_W hW r w
    have h1 : glen W' (r.drop (take_line W' w r).1.length) ≤
        glen W' (r.drop (take_line W w r).1.length) :=
      glen_drop_le_glen W' r
        (fun x hx => hnn x (List.mem_cons_of_mem _ hx)) hk
    have hlenr : (r.drop (take_line W w r).1.length).length ≤ n := by
      rw [List.length_drop]
      simp only [List.length_cons] at hlen
      omega
    have h2 : glen W' (r.drop (take_line W w r).1.length) ≤
        glen W (r.drop (take_line W w r).1.length) :=
      ih _ hlenr
        (fun x hx => hnn x (List.mem_cons_of_mem _ (List.mem_of_mem_drop hx)))
    omega

/-! ## The wrapper's line count is the greedy line count -/

theorem flush_segment_ne_nil (font : FontVec) (scale : PxScale) (cl : Line)
    (seg : TextSegment) (h : seg.text ≠ []) :
    flush_segment font scale cl seg ≠ [] := by
  unfold flush_segment
  rw [if_pos h]
  simp

/-- From any state with a non-empty open segment, the rest of the
character loop contributes `1 + glen` of the remaining width list with
the current line's width already accumulated. -/
theorem wrap_count_run (font : FontVec) (scale : PxScale) (max_width : ℤ) :
    ∀ (ps : List (Char × Bool)) (st : WrapState),
      st.current_segment.text ≠ [] →
      (wrap_finish font scale (wrap_run_pairs font scale max_width st ps)).length
        = st.lines.length + 1 +
          glen max_width
            (take_line max_width st.line_width
              (ps.map fun p => measure_text_width [p.1] font scale)).2 := by
  intro ps
  induction ps with
  | nil =>
    intro st hseg
    unfold wrap_run_pairs
    simp only [List.foldl_nil, List.map_nil]
    unfold wrap_finish
    have hne := flush_segment_ne_nil font scale st.current_line
      st.current_segment hseg
    simp [hne, take_line, glen_nil]
  | cons p rest ih =>
    intro st hseg
    rw [wrap_run_pairs, List.foldl_cons, ← wrap_run_pairs]
    obtain ⟨ls, cl, seg, lw⟩ := st
    simp only at hseg
    have hmap : ((p :: rest).map fun p => measure_text_width [p.1] font scale)
        = measure_text_width [p.1] font scale ::
          (rest.map fun p => measure_text_width [p.1] font scale) :=
      List.map_cons ..
    by_cases hc : lw + measure_text_width [p.1] font scale ≤ max_width
    · have htl : (take_line max_width lw
          ((p :: rest).map fun p => measure_text_width [p.1] font scale)).2 =
          (take_line max_width (lw + measure_text_width [p.1] font scale)
            (rest.map fun p => measure_text_width [p.1] font scale)).2 := by
        rw [hmap, take_line]
        simp [if_pos hc]
      by_cases hh : seg.is_highlighted = p.2
      · rw [show wrap_step font scale max_width ⟨ls, cl, seg, lw⟩ p.2 p.1 =
            ⟨ls, cl, ⟨seg.text ++ [p.1], seg.is_highlighted⟩,
              lw + measure_text_width [p.1] font scale⟩ from by
          unfold wrap_step
          rw [if_pos hc, if_pos hh]]
        rw [ih _ (by simp), htl]
      · rw [show wrap_step font scale max_width ⟨ls, cl, seg, lw⟩ p.2 p.1 =
            ⟨ls, flush_segment font scale cl seg, ⟨[p.1], p.2⟩,
              lw + measure_text_width [p.1] font scale⟩ from by
          unfold wrap_step
          rw [if_pos hc, if_neg hh]]
        rw [ih _ (by simp), htl]
    · have hne := flush_segment_ne_nil font scale cl seg hseg
      rw [show wrap_step font scale max_width ⟨ls, cl, seg, lw⟩ p.2 p.1 =
          ⟨ls ++ [flush_segment font scale cl seg], [], ⟨[p.1], p.2⟩,
            measure_text_width [p.1] font scale⟩ from by
        unfold wrap_step
        rw [if_neg hc]
        simp [hne]]
      rw [ih _ (by simp)]
      have htl : (take_line max_width lw
          ((p :: rest).map fun p => measure_text_width [p.1] font scale)).2 =
          measure_text_width [p.1] font scale ::
            (rest.map fun p => measure_text_width [p.1] font scale) := by
        rw [hmap, take_line]
        simp [if_neg hc]
      rw [htl, glen_cons]
      simp only [List.length_append, List.length_singleton]
      omega

/-- The first character of a paragraph always lands as the sole open
segment with its width as the running width. -/
theorem wrap_step_init (font : FontVec) (scale : PxScale) (max_width : ℤ)
    (hl : Bool) (c : Char) :
    wrap_step font scale max_width ⟨[], [], ⟨[], false⟩, 0⟩ hl c =
      ⟨[], [], ⟨[c], hl⟩, measure_text_width [c] font scale⟩ := by
  unfold wrap_step
  by_cases hc : (0 : ℤ) + measure_text_width [c] font scale ≤ max_width
  · rw [if_pos hc]
    by_cases hh : (⟨[], false⟩ : TextSegment).is_highlighted = hl
    · rw [if_pos hh]
      simp only at hh
      simp [← hh]
    · rw [if_neg hh]
      simp [flush_segment]
  · rw [if_neg hc]
    simp [flush_segment]

theorem wrap_paragraph_length (font : FontVec) (scale : PxScale)
    (max_width : ℤ) (par : List Char) (hpar : par ≠ []) :
    (wrap_paragraph font scale max_width [] par).length =
      glen max_width (char_widths font scale par) := by
  unfold wrap_paragraph
  rw [if_neg hpar, wrap_run_eq_pairs]
  have hfst : (seg_pairs (parse_highlighted_text par)).map Prod.fst = par := by
    rw [seg_pairs_map_fst, parse_text]
  have hw : ((seg_pairs (parse_highlighted_text par)).map
      fun p => measure_text_width [p.1] font scale) =
      char_widths font scale par := by
    rw [show ((seg_pairs (parse_highlighted_text par)).map
        fun p => measure_text_width [p.1] font scale) =
        ((seg_pairs (parse_highlighted_text par)).map Prod.fst).map
          (fun c => measure_text_width [c] font scale) from by
      rw [List.map_map]
      rfl]
    rw [hfst]
    rfl
  rcases hps : seg_pairs (parse_highlighted_text par) with _ | ⟨p, ps⟩
  · rw [hps] at hfst
    simp at hfst
    exact absurd hfst hpar
  · rw [wrap_run_pairs, List.foldl_cons, ← wrap_run_pairs, wrap_step_init]
    rw [wrap_count_run font scale max_width ps _ (by simp)]
    rw [← hw, hps, List.map_cons, glen_cons]
    simp only [List.length_nil]
    omega

theorem wrap_paragraph_length_nil (font : FontVec) (scale : PxScale)
    (max_width : ℤ) :
    (wrap_paragraph font scale max_width [] []).length = 1 := rfl

theorem par_line_count_pos (font : FontVec) (scale : PxScale) (W : ℤ)
    (par : List Char) : 1 ≤ par_line_count font scale W par := by
  unfold par_line_count
  by_cases h : par = []
  · simp [h]
  · rw [if_neg h]
    rcases par with _ | ⟨c, cs⟩
    · exact absurd rfl h
    · unfold char_widths
      rw [List.map_cons]
      exact glen_pos ..

theorem wrap_paragraph_count (font : FontVec) (scale : PxScale)
    (max_width : ℤ) (par : List Char) :
    (wrap_paragraph font scale max_width [] par).length =
      par_line_count font scale max_width par := by
  by_cases h : par = []
  · subst h
    rw [wrap_paragraph_length_nil]
    simp [par_line_count]
  · rw [wrap_paragraph_length font scale max_width par h, par_line_count,
      if_neg h]

/-- The line count of `wrap_text` in terms of the greedy counts. -/
theorem wrap_text_count (text : List Char) (font : FontVec)
    (scale : PxScale) (max_width : ℤ) :
    (wrap_text text font scale max_width).length =
      if str_lines text = [] then 1
      else text_line_count font scale max_width text := by
  rw [wrap_text_eq_flat]
  simp only []
  have hlen : ((str_lines text).flatMap
      (wrap_paragraph font scale max_width [])).length =
      text_line_count font scale max_width text := by
    rw [List.length_flatMap]
    unfold text_line_count
    congr 1
    exact List.map_congr_left fun par _ =>
      wrap_paragraph_count font scale max_width par
  by_cases hpars : str_lines text = []
  · rw [if_pos hpars]
    rw [hpars] at *
    simp
  · rw [if_neg hpars]
    have hpos : 1 ≤ text_line_count font scale max_width text := by
      unfold text_line_count
      rcases hp : str_lines text with _ | ⟨par, rest⟩
      · exact absurd hp hpars
      · rw [List.map_cons, List.sum_cons]
        have := par_line_count_pos font scale max_width par
        omega
    rw [if_neg (fun hempty => by rw [hempty] at hlen; simp at hlen; omega)]
    exact hlen

/-! ## Monotonicity of the probed quantities in the font size -/

theorem fit_scale_x (s : ℕ) : (fit_scale s).x = (s : ℚ) := rfl

theorem fit_scale_x_nonneg (s : ℕ) : 0 ≤ (fit_scale s).x := by
  rw [fit_scale_x]
  exact_mod_cast Nat.zero_le s

theorem char_width_mono (font : FontVec) {s t : ℕ} (hst : s ≤ t) (c : Char) :
    measure_text_width [c] font (fit_scale s) ≤
      measure_text_width [c] font (fit_scale t) := by
  rw [measure_singleton, measure_singleton]
  apply Int.ceil_le_ceil
  have h1 := font.adv_nonneg c
  have h2 := font.upm_pos'
  have hq : (s : ℚ) ≤ (t : ℚ) := by exact_mod_cast hst
  rw [fit_scale_x, fit_scale_x]
  exact (div_le_div_right h2).mpr (mul_le_mul_of_nonneg_left hq h1)

theorem char_widths_nonneg (font : FontVec) (s : ℕ) (par : List Char) :
    ∀ w ∈ char_widths font (fit_scale s) par, 0 ≤ w := by
  intro w hw
  rcases List.mem_map.mp hw with ⟨c, _, rfl⟩
  exact char_width_nonneg font (fit_scale s) (fit_scale_x_nonneg s) c

theorem forall₂_map_le {α : Type} (l : List α) (f g : α → ℤ)
    (h : ∀ a ∈ l, f a ≤ g a) :
    List.Forall₂ (· ≤ ·) (l.map f) (l.map g) := by
  induction l with
  | nil => simp
  | cons a l ih =>
    rw [List.map_cons, List.map_cons]
    exact List.Forall₂.cons (h a (by simp))
      (ih fun b hb => h b (List.mem_cons_of_mem a hb))

/-- The wrapped line count is monotone in the probed font size. -/
theorem fit_count_mono (text : List Char) (font : FontVec)
    (region_width : ℕ) {s t : ℕ} (hst : s ≤ t) :
    (fit_lines text font region_width s).length ≤
      (fit_lines text font region_width t).length := by
  unfold fit_lines
  rw [wrap_text_count, wrap_text_count]
  by_cases hp : str_lines text = []
  · simp [hp]
  · rw [if_neg hp, if_neg hp]
    unfold text_line_count
    apply List.sum_le_sum
    intro par _
    unfold par_line_count
    by_cases he : par = []
    · simp [he]
    · rw [if_neg he, if_neg he]
      refine glen_mono_widths (region_width : ℤ)
        (char_widths font (fit_scale s) par).length _ _ le_rfl ?_
        (char_widths_nonneg font t par)
      exact forall₂_map_le par _ _ fun c _ => char_width_mono font hst c

/-- The wrapped line count is antitone in the region width. -/
theorem fit_count_anti_width (text : List Char) (font : FontVec)
    {W W' : ℕ} (hW : W ≤ W') (s : ℕ) :
    (fit_lines text font W' s).length ≤ (fit_lines text font W s).length := by
  unfold fit_lines
  rw [wrap_text_count, wrap_text_count]
  by_cases hp : str_lines text = []
  · simp [hp]
  · rw [if_neg hp, if_neg hp]
    unfold text_line_count
    apply List.sum_le_sum
    intro par _
    unfold par_line_count
    by_cases he : par = []
    · simp [he]
    · rw [if_neg he, if_neg he]
      exact glen_anti_capacity (by exact_mod_cast hW)
        (char_widths font (fit_scale s) par).length _ le_rfl
        (char_widths_nonneg font s par)

/-! ## The width half of the feasibility test, characterised -/

theorem foldl_max_le (B : ℤ) (ls : List Line) :
    ∀ acc, acc ≤ B → (∀ l ∈ ls, line_total_width l ≤ B) →
      ls.foldl (fun m l => max m (line_total_width l)) acc ≤ B := by
  induction ls with
  | nil => intro acc hacc _; simpa using hacc
  | cons l rest ih =>
    intro acc hacc h
    rw [List.foldl_cons]
    exact ih _ (max_le hacc (h l (by simp)))
      (fun x hx => h x (List.mem_cons_of_mem l hx))

theorem foldl_max_acc_le (ls : List Line) : ∀ acc : ℤ,
    acc ≤ ls.foldl (fun m l => max m (line_total_width l)) acc := by
  induction ls with
  | nil => intro acc; simp
  | cons x rest ih =>
    intro acc
    rw [List.foldl_cons]
    exact le_trans (le_max_left _ _) (ih _)

theorem le_foldl_max (ls : List Line) (l : Line) (h : l ∈ ls) :
    ∀ acc, line_total_width l ≤
      ls.foldl (fun m l => max m (line_total_width l)) acc := by
  induction ls with
  | nil => exact absurd h (by simp)
  | cons x rest ih =>
    intro acc
    rw [List.foldl_cons]
    rcases List.mem_cons.mp h with rfl | hmem
    · exact le_trans (le_max_right _ _) (foldl_max_acc_le rest _)
    · exact ih hmem _

theorem lines_max_width_le (B : ℤ) (hB : 0 ≤ B) (ls : List Line)
    (h : ∀ l ∈ ls, line_total_width l ≤ B) : lines_max_width ls ≤ B :=
  foldl_max_le B ls 0 hB h

theorem line_le_lines_max_width (ls : List Line) (l : Line) (h : l ∈ ls) :
    line_total_width l ≤ lines_max_width ls :=
  le_foldl_max ls l h 0

/-- The fitter's width test holds exactly when every character of the
text fits the region width on its own. -/
theorem fit_width_iff (text : List Char) (font : FontVec)
    (region_width : ℕ) (s : ℕ) :
    lines_max_width (fit_lines text font region_width s) ≤ (region_width : ℤ)
      ↔ ∀ par ∈ str_lines text, ∀ c ∈ par,
          measure_text_width [c] font (fit_scale s) ≤ (region_width : ℤ) := by
  constructor
  · intro h par hpar c hc
    by_contra hover
    push_neg at hover
    rcases wrap_text_oversized text font (fit_scale s) (region_width : ℤ)
        (fit_scale_x_nonneg s) par hpar c hc hover with ⟨hl, hmem⟩
    have hle := line_le_lines_max_width _ _ hmem
    have htot : line_total_width
        [(⟨[c], hl⟩, measure_text_width [c] font (fit_scale s))] =
        measure_text_width [c] font (fit_scale s) := by
      simp [line_total_width]
    rw [htot] at hle
    unfold fit_lines at h
    omega
  · intro h
    exact lines_max_width_le _ (by exact_mod_cast Nat.zero_le region_width) _
      (wrap_text_width_le text font (fit_scale s) (region_width : ℤ)
        (by exact_mod_cast Nat.zero_le region_width) h)

/-! ## The height half of the feasibility test -/

theorem get_line_height_fit (font : FontVec) (s : ℕ) :
    get_line_height font (fit_scale s) =
      ⌈(font.ascent_unscaled - font.descent_unscaled + font.line_gap_unscaled)
        * (s : ℚ) / font.upm⌉ := rfl

theorem line_height_nonneg (font : FontVec) (s : ℕ)
    (hA : 0 ≤ font.ascent_unscaled - font.descent_unscaled +
      font.line_gap_unscaled) :
    0 ≤ get_line_height font (fit_scale s) := by
  rw [get_line_height_fit]
  have h2 := font.upm_pos'
  have hs : (0 : ℚ) ≤ (s : ℚ) := by exact_mod_cast Nat.zero_le s
  exact_mod_cast Int.ceil_nonneg (by positivity)

theorem line_height_nonpos (font : FontVec) (s : ℕ)
    (hA : font.ascent_unscaled - font.descent_unscaled +
      font.line_gap_unscaled ≤ 0) :
    get_line_height font (fit_scale s) ≤ 0 := by
  rw [get_line_height_fit]
  have h2 := font.upm_pos'
  have hs : (0 : ℚ) ≤ (s : ℚ) := by exact_mod_cast Nat.zero_le s
  have : (font.ascent_unscaled - font.descent_unscaled +
      font.line_gap_unscaled) * (s : ℚ) / font.upm ≤ 0 := by
    apply div_nonpos_of_nonpos_of_nonneg _ (le_of_lt h2)
    exact mul_nonpos_of_nonpos_of_nonneg hA hs
  exact_mod_cast Int.ceil_le.mpr (by exact_mod_cast this)

theorem line_height_mono (font : FontVec) {s t : ℕ} (hst : s ≤ t)
    (hA : 0 ≤ font.ascent_unscaled - font.descent_unscaled +
      font.line_gap_unscaled) :
    get_line_height font (fit_scale s) ≤ get_line_height font (fit_scale t) := by
  rw [get_line_height_fit, get_line_height_fit]
  apply Int.ceil_le_ceil
  have h2 := font.upm_pos'
  have hq : (s : ℚ) ≤ (t : ℚ) := by exact_mod_cast hst
  exact (div_le_div_iff_of_pos_right h2).mpr (mul_le_mul_of_nonneg_left hq hA)

theorem line_height_anti (font : FontVec) {s t : ℕ} (hst : s ≤ t)
    (hA : font.ascent_unscaled - font.descent_unscaled +
      font.line_gap_unscaled ≤ 0) :
    get_line_height font (fit_scale t) ≤ get_line_height font (fit_scale s) := by
  rw [get_line_height_fit, get_line_height_fit]
  apply Int.ceil_le_ceil
  have h2 := font.upm_pos'
  have hq : (s : ℚ) ≤ (t : ℚ) := by exact_mod_cast hst
  apply (div_le_div_iff_of_pos_right h2).mpr
  exact mul_le_mul_of_nonpos_left hq hA

theorem fit_lines_length_pos (text : List Char) (font : FontVec)
    (region_width : ℕ) (s : ℕ) :
    0 < (fit_lines text font region_width s).length :=
  List.length_pos.mpr (wrap_text_ne_nil text font (fit_scale s) _)

theorem fit_height_eq (text : List Char) (font : FontVec)
    (region_width : ℕ) (line_spacing : ℚ) (s : ℕ) :
    fit_height text font region_width line_spacing s =
      fit_spaced font line_spacing s *
        (fit_lines text font region_width s).length := by
  unfold fit_height
  rw [if_neg (show fit_lines text font region_width s ≠ [] from
    wrap_text_ne_nil text font (fit_scale s) _)]

/-- A nonpositive spaced line height makes every block height fit. -/
theorem fit_height_le_of_spaced_nonpos (text : List Char) (font : FontVec)
    (region_width : ℕ) (line_spacing : ℚ) (s : ℕ) (H : ℕ)
    (hsp : fit_spaced font line_spacing s ≤ 0) :
    fit_height text font region_width line_spacing s ≤ (H : ℤ) := by
  rw [fit_height_eq]
  have hn : (0 : ℤ) ≤ (fit_lines text font region_width s).length := by
    exact_mod_cast Nat.zero_le _
  calc fit_spaced font line_spacing s *
      (fit_lines text font region_width s).length
      ≤ 0 * (fit_lines text font region_width s).length :=
        mul_le_mul_of_nonneg_right hsp hn
    _ = 0 := by ring
    _ ≤ (H : ℤ) := by exact_mod_cast Nat.zero_le H

/-- Feasibility of the block height is downward closed in the font
size. -/
theorem fit_height_closure (text : List Char) (font : FontVec)
    (region_width : ℕ) (line_spacing : ℚ) (H : ℕ) {s t : ℕ} (hst : s ≤ t)
    (ht : fit_height text font region_width line_spacing t ≤ (H : ℤ)) :
    fit_height text font region_width line_spacing s ≤ (H : ℤ) := by
  have hcount : (fit_lines text font region_width s).length ≤
      (fit_lines text font region_width t).length :=
    fit_count_mono text font region_width hst
  by_cases hsp : fit_spaced font line_spacing s ≤ 0
  · exact fit_height_le_of_spaced_nonpos text font region_width line_spacing
      s H hsp
  push_neg at hsp
  -- positive spaced height: show it is dominated by the one at `t`
  have hspaced : fit_spaced font line_spacing s ≤
      fit_spaced font line_spacing t := by
    unfold fit_spaced
    apply Int.ceil_le_ceil
    by_cases hA : 0 ≤ font.ascent_unscaled - font.descent_unscaled +
        font.line_gap_unscaled
    · by_cases hq : 0 ≤ 1 + line_spacing
      · have h1 : (get_line_height font (fit_scale s) : ℚ) ≤
            (get_line_height font (fit_scale t) : ℚ) := by
          exact_mod_cast line_height_mono font hst hA
        exact mul_le_mul_of_nonneg_right h1 hq
      · push_neg at hq
        -- spaced s would be nonpositive: contradiction with hsp
        exfalso
        have h0 : 0 ≤ get_line_height font (fit_scale s) :=
          line_height_nonneg font s hA
        have hm : (get_line_height font (fit_scale s) : ℚ) *
            (1 + line_spacing) ≤ 0 :=
          mul_nonpos_of_nonneg_of_nonpos (by exact_mod_cast h0)
            (le_of_lt hq)
        have hceil : ⌈(get_line_height font (fit_scale s) : ℚ) *
            (1 + line_spacing)⌉ ≤ (0 : ℤ) :=
          Int.ceil_le.mpr (by exact_mod_cast hm)
        unfold fit_spaced at hsp
        omega
    · push_neg at hA
      by_cases hq : 0 ≤ 1 + line_spacing
      · exfalso
        have h0 : get_line_height font (fit_scale s) ≤ 0 :=
          line_height_nonpos font s (le_of_lt hA)
        have hm : (get_line_height font (fit_scale s) : ℚ) *
            (1 + line_spacing) ≤ 0 :=
          mul_nonpos_of_nonpos_of_nonneg (by exact_mod_cast h0) hq
        have hceil : ⌈(get_line_height font (fit_scale s) : ℚ) *
            (1 + line_spacing)⌉ ≤ (0 : ℤ) :=
          Int.ceil_le.mpr (by exact_mod_cast hm)
        unfold fit_spaced at hsp
        omega
      · push_neg at hq
        have h1 : (get_line_height font (fit_scale t) : ℚ) ≤
            (get_line_height font (fit_scale s) : ℚ) := by
          exact_mod_cast line_height_anti font hst (le_of_lt hA)
        exact mul_le_mul_of_nonpos_right h1 (le_of_lt hq)
  rw [fit_height_eq] at ht ⊢
  have hns : (0 : ℤ) ≤ (fit_lines text font region_width s).length := by
    exact_mod_cast Nat.zero_le _
  have hcast : ((fit_lines text font region_width s).length : ℤ) ≤
      (fit_lines text font region_width t).length := by
    exact_mod_cast hcount
  calc fit_spaced font line_spacing s *
      (fit_lines text font region_width s).length
      ≤ fit_spaced font line_spacing t *
        (fit_lines text font region_width t).length :=
        mul_le_mul hspaced hcast hns (le_trans (le_of_lt hsp) hspaced)
    _ ≤ (H : ℤ) := ht

/-- The fitter's feasibility predicate is downward closed in the font
size. -/
theorem fit_feasible_closure (text : List Char) (font : FontVec)
    (region_width region_height : ℕ) (line_spacing : ℚ) {s t : ℕ}
    (hst : s ≤ t)
    (ht : fit_feasible text font region_width region_height line_spacing t) :
    fit_feasible text font region_width region_height line_spacing s := by
  obtain ⟨htw, hth⟩ := ht
  constructor
  · rw [fit_width_iff] at htw ⊢
    intro par hpar c hc
    exact le_trans (char_width_mono font hst c) (htw par hpar c hc)
  · exact fit_height_closure text font region_width line_spacing
      region_height hst hth

/-- The fitter's feasibility predicate is monotone in the region. -/
theorem fit_feasible_region_mono (text : List Char) (font : FontVec)
    (line_spacing : ℚ) {W W' H H' : ℕ} (hW : W ≤ W') (hH : H ≤ H') (s : ℕ)
    (h : fit_feasible text font W H line_spacing s) :
    fit_feasible text font W' H' line_spacing s := by
  obtain ⟨hw, hh⟩ := h
  constructor
  · rw [fit_width_iff] at hw ⊢
    intro par hpar c hc
    exact le_trans (hw par hpar c hc) (by exact_mod_cast hW)
  · by_cases hsp : fit_spaced font line_spacing s ≤ 0
    · exact fit_height_le_of_spaced_nonpos text font W' line_spacing s H' hsp
    · push_neg at hsp
      rw [fit_height_eq] at hh ⊢
      have hcount : (fit_lines text font W' s).length ≤
          (fit_lines text font W s).length :=
        fit_count_anti_width text font hW s
      calc fit_spaced font line_spacing s * (fit_lines text font W' s).length
          ≤ fit_spaced font line_spacing s * (fit_lines text font W s).length :=
            mul_le_mul_of_nonneg_left (by exact_mod_cast hcount)
              (le_of_lt hsp)
        _ ≤ (H : ℤ) := hh
        _ ≤ (H' : ℤ) := by exact_mod_cast hH

/-! ## The binary search of `prepare_textarea` -/

theorem from'_int_eq_fit_scale (mid : ℤ) (h : 0 ≤ mid) :
    PxScale.from' (mid : ℚ) = fit_scale mid.toNat := by
  unfold fit_scale
  have : ((mid.toNat : ℕ) : ℚ) = (mid : ℚ) := by
    exact_mod_cast congrArg (fun z : ℤ => (z : ℚ)) (Int.toNat_of_nonneg h)
  rw [this]

theorem prepare_loop_succ_feasible (text : List Char) (font : FontVec)
    (W H : ℕ) (lsp : ℚ) (fuel : ℕ) (lo hi : ℤ) (best : PreparedTextarea)
    (h : lo ≤ hi) (hlo : 1 ≤ lo)
    (hfeas : fit_feasible text font W H lsp ((lo + hi) / 2).toNat) :
    prepare_loop text font W H lsp (fuel + 1) lo hi best =
      prepare_loop text font W H lsp fuel ((lo + hi) / 2 + 1) hi
        ⟨((lo + hi) / 2).toNat,
          fit_lines text font W ((lo + hi) / 2).toNat,
          fit_spaced font lsp ((lo + hi) / 2).toNat,
          fit_height text font W lsp ((lo + hi) / 2).toNat⟩ := by
  have hmid0 : 0 ≤ (lo + hi) / 2 := by
    omega
  rw [prepare_loop, if_pos h]
  simp only []
  rw [from'_int_eq_fit_scale _ hmid0,
    if_neg (wrap_text_ne_nil text font (fit_scale ((lo + hi) / 2).toNat)
      (W : ℤ))]
  split
  · rw [fit_height_eq]
    rfl
  · rename_i hfalse
    refine absurd ?_ hfalse
    refine ⟨hfeas.1, ?_⟩
    have h2 := hfeas.2
    rw [fit_height_eq] at h2
    exact h2

theorem prepare_loop_succ_infeasible (text : List Char) (font : FontVec)
    (W H : ℕ) (lsp : ℚ) (fuel : ℕ) (lo hi : ℤ) (best : PreparedTextarea)
    (h : lo ≤ hi) (hlo : 1 ≤ lo)
    (hinf : ¬fit_feasible text font W H lsp ((lo + hi) / 2).toNat) :
    prepare_loop text font W H lsp (fuel + 1) lo hi best =
      prepare_loop text font W H lsp fuel lo ((lo + hi) / 2 - 1) best := by
  have hmid0 : 0 ≤ (lo + hi) / 2 := by
    omega
  rw [prepare_loop, if_pos h]
  simp only []
  rw [from'_int_eq_fit_scale _ hmid0,
    if_neg (wrap_text_ne_nil text font (fit_scale ((lo + hi) / 2).toNat)
      (W : ℤ))]
  split
  · rename_i htrue
    refine absurd (⟨htrue.1, ?_⟩ :
      fit_feasible text font W H lsp ((lo + hi) / 2).toNat) hinf
    rw [fit_height_eq]
    exact htrue.2
  · rfl

theorem prepare_loop_stop (text : List Char) (font : FontVec)
    (W H : ℕ) (lsp : ℚ) (fuel : ℕ) (lo hi : ℤ) (best : PreparedTextarea)
    (h : ¬lo ≤ hi) :
    prepare_loop text font W H lsp (fuel + 1) lo hi best = best := by
  rw [prepare_loop, if_neg h]

/-- Correctness of the fitter's binary search: under the invariants, the
loop returns the largest feasible size when one exists, and the incoming
`best` untouched when none does. -/
theorem prepare_loop_spec (text : List Char) (font : FontVec)
    (W H : ℕ) (lsp : ℚ) (S : ℕ) :
    ∀ (fuel : ℕ) (lo hi : ℤ) (best : PreparedTextarea),
      1 ≤ lo → hi ≤ (S : ℤ) → lo ≤ hi + 1 → (hi + 1 - lo).toNat ≤ fuel →
      (∀ s : ℕ, 1 ≤ s → s ≤ S → fit_feasible text font W H lsp s →
        (s : ℤ) ≤ hi) →
      (lo = 1 ∨
        (1 ≤ best.font_size ∧ (best.font_size : ℤ) = lo - 1 ∧
          best.font_size ≤ S ∧
          fit_feasible text font W H lsp best.font_size ∧
          best.lines = fit_lines text font W best.font_size ∧
          best.spaced_line_height = fit_spaced font lsp best.font_size ∧
          best.block_height = fit_height text font W lsp best.font_size)) →
      ((∃ s : ℕ, 1 ≤ s ∧ s ≤ S ∧ fit_feasible text font W H lsp s) →
        (1 ≤ (prepare_loop text font W H lsp fuel lo hi best).font_size ∧
          (prepare_loop text font W H lsp fuel lo hi best).font_size ≤ S ∧
          fit_feasible text font W H lsp
            (prepare_loop text font W H lsp fuel lo hi best).font_size ∧
          (∀ s : ℕ, 1 ≤ s → s ≤ S → fit_feasible text font W H lsp s →
            s ≤ (prepare_loop text font W H lsp fuel lo hi best).font_size) ∧
          (prepare_loop text font W H lsp fuel lo hi best).lines =
            fit_lines text font W
              (prepare_loop text font W H lsp fuel lo hi best).font_size ∧
          (prepare_loop text font W H lsp fuel lo hi best).spaced_line_height =
            fit_spaced font lsp
              (prepare_loop text font W H lsp fuel lo hi best).font_size ∧
          (prepare_loop text font W H lsp fuel lo hi best).block_height =
            fit_height text font W lsp
              (prepare_loop text font W H lsp fuel lo hi best).font_size))
      ∧ ((∀ s : ℕ, 1 ≤ s → s ≤ S → ¬fit_feasible text font W H lsp s) →
          prepare_loop text font W H lsp fuel lo hi best = best) := by
  intro fuel
  induction fuel with
  | zero =>
    intro lo hi best hlo hhi hlohi hfuel hP1 hP2
    have hexit : lo = hi + 1 := by omega
    have hred : prepare_loop text font W H lsp 0 lo hi best = best := rfl
    rw [hred]
    constructor
    · rintro ⟨s₀, hs1, hsS, hfs⟩
      have hs₀ : (s₀ : ℤ) ≤ hi := hP1 s₀ hs1 hsS hfs
      rcases hP2 with h1 | hgood
      · exfalso
        omega
      · obtain ⟨hb1, hb2, hb3, hb4, hb5, hb6, hb7⟩ := hgood
        refine ⟨hb1, hb3, hb4, ?_, hb5, hb6, hb7⟩
        intro s hs1' hsS' hfs'
        have := hP1 s hs1' hsS' hfs'
        omega
    · intro _
      rfl
  | succ fuel ih =>
    intro lo hi best hlo hhi hlohi hfuel hP1 hP2
    by_cases h : lo ≤ hi
    · have hmidlo : lo ≤ (lo + hi) / 2 := by omega
      have hmidhi : (lo + hi) / 2 ≤ hi := by omega
      have hmid0 : 0 ≤ (lo + hi) / 2 := by omega
      set mid := (lo + hi) / 2 with hmid
      have hm1 : 1 ≤ mid.toNat := by omega
      have hmS : mid.toNat ≤ S := by omega
      have hmcast : (mid.toNat : ℤ) = mid := Int.toNat_of_nonneg hmid0
      by_cases hfeas : fit_feasible text font W H lsp mid.toNat
      · rw [prepare_loop_succ_feasible text font W H lsp fuel lo hi best h
          hlo hfeas]
        have hres := ih (mid + 1) hi
          ⟨mid.toNat, fit_lines text font W mid.toNat,
            fit_spaced font lsp mid.toNat,
            fit_height text font W lsp mid.toNat⟩
          (by omega) hhi (by omega) (by omega) hP1
          (Or.inr ⟨hm1, by simp only []; omega, hmS, hfeas, rfl, rfl, rfl⟩)
        refine ⟨hres.1, ?_⟩
        intro hnone
        exact absurd hfeas (hnone mid.toNat hm1 hmS)
      · rw [prepare_loop_succ_infeasible text font W H lsp fuel lo hi best h
          hlo hfeas]
        refine ih lo (mid - 1) best hlo (by omega) ?_ (by omega) ?_ hP2
        · -- lo ≤ (mid - 1) + 1
          omega
        · intro s hs1 hsS hfs
          by_contra hgt
          push_neg at hgt
          have hms : mid.toNat ≤ s := by omega
          exact hfeas (fit_feasible_closure text font W H lsp hms hfs)
    · rw [prepare_loop_stop text font W H lsp fuel lo hi best h]
      have hexit : lo = hi + 1 := by omega
      constructor
      · rintro ⟨s₀, hs1, hsS, hfs⟩
        have hs₀ : (s₀ : ℤ) ≤ hi := hP1 s₀ hs1 hsS hfs
        rcases hP2 with h1 | hgood
        · exfalso
          omega
        · obtain ⟨hb1, hb2, hb3, hb4, hb5, hb6, hb7⟩ := hgood
          refine ⟨hb1, hb3, hb4, ?_, hb5, hb6, hb7⟩
          intro s hs1' hsS' hfs'
          have := hP1 s hs1' hsS' hfs'
          omega
      · intro _
        rfl

/-- `prepare_textarea` is the loop started at `lo = 1`, `hi = S` with fuel
`S + 1` and the size-1 fallback layout as initial best, where `S` is the
cap clamped to the region height. -/
theorem prepare_textarea_eq_loop (text : List Char) (font : FontVec)
    (W H : ℕ) (mfs : Option ℕ) (lsp : ℚ) (S : ℕ)
    (hS : S = Option.elim mfs H fun m => min m H) :
    prepare_textarea text font W H mfs lsp =
      prepare_loop text font W H lsp (S + 1) 1 (S : ℤ)
        ⟨1, [[(⟨text, false⟩, 0)]], 1, 1⟩ := by
  rcases mfs with _ | m
  · have h' : S = H := hS
    subst h'
    rfl
  · have h' : S = min m H := hS
    subst h'
    rfl

/-- The full behaviour of `prepare_textarea`: the returned size is at
least 1; when some size in `[1, S]` is feasible the result is the largest
feasible size together with the layout computed at that size; when none is
feasible the result is the size-1 fallback layout. -/
theorem prepare_textarea_spec (text : List Char) (font : FontVec)
    (W H : ℕ) (mfs : Option ℕ) (lsp : ℚ) (S : ℕ)
    (hS : S = Option.elim mfs H fun m => min m H) :
    1 ≤ (prepare_textarea text font W H mfs lsp).font_size ∧
    ((∃ s : ℕ, 1 ≤ s ∧ s ≤ S ∧ fit_feasible text font W H lsp s) →
      (prepare_textarea text font W H mfs lsp).font_size ≤ S ∧
      fit_feasible text font W H lsp
        (prepare_textarea text font W H mfs lsp).font_size ∧
      (∀ s : ℕ, 1 ≤ s → s ≤ S → fit_feasible text font W H lsp s →
        s ≤ (prepare_textarea text font W H mfs lsp).font_size) ∧
      (prepare_textarea text font W H mfs lsp).lines =
        fit_lines text font W
          (prepare_textarea text font W H mfs lsp).font_size ∧
      (prepare_textarea text font W H mfs lsp).spaced_line_height =
        fit_spaced font lsp
          (prepare_textarea text font W H mfs lsp).font_size ∧
      (prepare_textarea text font W H mfs lsp).block_height =
        fit_height text font W lsp
          (prepare_textarea text font W H mfs lsp).font_size) ∧
    ((∀ s : ℕ, 1 ≤ s → s ≤ S → ¬fit_feasible text font W H lsp s) →
      prepare_textarea text font W H mfs lsp =
        ⟨1, [[(⟨text, false⟩, 0)]], 1, 1⟩) := by
  have hrw := prepare_textarea_eq_loop text font W H mfs lsp S hS
  have hmain := prepare_loop_spec text font W H lsp S (S + 1) 1 (S : ℤ)
    ⟨1, [[(⟨text, false⟩, 0)]], 1, 1⟩ (le_refl 1) (le_refl (S : ℤ))
    (by omega) (by omega)
    (fun s _ hsS _ => by exact_mod_cast hsS) (Or.inl rfl)
  rw [hrw]
  refine ⟨?_, ?_, hmain.2⟩
  · by_cases hex : ∃ s : ℕ, 1 ≤ s ∧ s ≤ S ∧ fit_feasible text font W H lsp s
    · exact (hmain.1 hex).1
    · have hall : ∀ s : ℕ, 1 ≤ s → s ≤ S →
          ¬fit_feasible text font W H lsp s :=
        fun s h1 h2 hf => hex ⟨s, h1, h2, hf⟩
      rw [hmain.2 hall]
  · intro hex
    obtain ⟨_, h2, h3, h4, h5, h6, h7⟩ := hmain.1 hex
    exact ⟨h2, h3, h4, h5, h6, h7⟩

/-- **C1 counterexample.**  With a font-size cap of `0` (a positive region
notwithstanding), `prepare_textarea` returns font size `1`, which is not
within the claimed range `[1, min cap region_height] = [1, 0]`. -/
theorem C1_counterexample :
    (prepare_textarea ['a'] testFont 5 5 (some 0) 0).font_size = 1 ∧
    ¬((prepare_textarea ['a'] testFont 5 5 (some 0) 0).font_size ≤
        min 0 5) := by
  constructor
  · rfl
  · intro hle
    have h1 : (prepare_textarea ['a'] testFont 5 5 (some 0) 0).font_size = 1 :=
      rfl
    omega

/-- **C1 (amended).**  For a region of positive width and height and a
font-size cap that is at least 1 when present, `prepare_textarea` returns a
font size between 1 and `S` inclusive, where `S` is the cap clamped to the
region height (the region height itself with no cap).  Whenever some size
in `[1, S]` is feasible — the wrapped lines' maximum total run width fits
the region width and the spaced block height fits the region height — the
returned size is the largest feasible one and the returned lines, spaced
line height and block height are exactly those computed at that size.  When
no size in the range is feasible (in particular when size 1 itself is
infeasible) the fitter still returns font size 1, never 0, with the
one-line fallback layout. -/
theorem C1_prepare_fit (text : List Char) (font : FontVec)
    (W H : ℕ) (max_font_size : Option ℕ) (lsp : ℚ) (S : ℕ)
    (hW : 1 ≤ W) (hH : 1 ≤ H) (hcap : ∀ m ∈ max_font_size, 1 ≤ m)
    (hS : S = Option.elim max_font_size H fun m => min m H) :
    (1 ≤ (prepare_textarea text font W H max_font_size lsp).font_size ∧
      (prepare_textarea text font W H max_font_size lsp).font_size ≤ S) ∧
    ((∃ s : ℕ, 1 ≤ s ∧ s ≤ S ∧ fit_feasible text font W H lsp s) →
      fit_feasible text font W H lsp
        (prepare_textarea text font W H max_font_size lsp).font_size ∧
      (∀ s : ℕ, 1 ≤ s → s ≤ S → fit_feasible text font W H lsp s →
        s ≤ (prepare_textarea text font W H max_font_size lsp).font_size) ∧
      (prepare_textarea text font W H max_font_size lsp).lines =
        fit_lines text font W
          (prepare_textarea text font W H max_font_size lsp).font_size ∧
      (prepare_textarea text font W H max_font_size lsp).spaced_line_height =
        fit_spaced font lsp
          (prepare_textarea text font W H max_font_size lsp).font_size ∧
      (prepare_textarea text font W H max_font_size lsp).block_height =
        fit_height text font W lsp
          (prepare_textarea text font W H max_font_size lsp).font_size) ∧
    ((∀ s : ℕ, 1 ≤ s → s ≤ S → ¬fit_feasible text font W H lsp s) →
      prepare_textarea text font W H max_font_size lsp =
        ⟨1, [[(⟨text, false⟩, 0)]], 1, 1⟩) := by
  have hS1 : 1 ≤ S := by
    rcases max_font_size with _ | m
    · have h' : S = H := hS
      omega
    · have h' : S = min m H := hS
      have hm := hcap m (by simp)
      omega
  have h := prepare_textarea_spec text font W H max_font_size lsp S hS
  refine ⟨⟨h.1, ?_⟩, ?_, h.2.2⟩
  · by_cases hex : ∃ s : ℕ, 1 ≤ s ∧ s ≤ S ∧ fit_feasible text font W H lsp s
    · exact (h.2.1 hex).1
    · have hall : ∀ s : ℕ, 1 ≤ s → s ≤ S →
          ¬fit_feasible text font W H lsp s :=
        fun s a b c => hex ⟨s, a, b, c⟩
      rw [h.2.2 hall]
      exact hS1
  · intro hex
    obtain ⟨_, h3, h4, h5, h6, h7⟩ := h.2.1 hex
    exact ⟨h3, h4, h5, h6, h7⟩

/-- **C1 witness.**  The amended fitter specification instantiated at a
concrete text, font and region. -/
theorem C1_witness :
    (1 ≤ (prepare_textarea ['a'] testFont 10 10 none 0).font_size ∧
      (prepare_textarea ['a'] testFont 10 10 none 0).font_size ≤ 10) ∧
    ((∃ s : ℕ, 1 ≤ s ∧ s ≤ 10 ∧ fit_feasible ['a'] testFont 10 10 0 s) →
      fit_feasible ['a'] testFont 10 10 0
        (prepare_textarea ['a'] testFont 10 10 none 0).font_size ∧
      (∀ s : ℕ, 1 ≤ s → s ≤ 10 → fit_feasible ['a'] testFont 10 10 0 s →
        s ≤ (prepare_textarea ['a'] testFont 10 10 none 0).font_size) ∧
      (prepare_textarea ['a'] testFont 10 10 none 0).lines =
        fit_lines ['a'] testFont 10
          (prepare_textarea ['a'] testFont 10 10 none 0).font_size ∧
      (prepare_textarea ['a'] testFont 10 10 none 0).spaced_line_height =
        fit_spaced testFont 0
          (prepare_textarea ['a'] testFont 10 10 none 0).font_size ∧
      (prepare_textarea ['a'] testFont 10 10 none 0).block_height =
        fit_height ['a'] testFont 10 0
          (prepare_textarea ['a'] testFont 10 10 none 0).font_size) ∧
    ((∀ s : ℕ, 1 ≤ s → s ≤ 10 → ¬fit_feasible ['a'] testFont 10 10 0 s) →
      prepare_textarea ['a'] testFont 10 10 none 0 =
        ⟨1, [[(⟨['a'], false⟩, 0)]], 1, 1⟩) :=
  C1_prepare_fit ['a'] testFont 10 10 none 0 10 (by norm_num) (by norm_num)
    (by intro m h; simp at h) rfl

/-- **C5.**  Holding the caption text, font, cap and line spacing fixed,
the font size returned by `prepare_textarea` is monotonically non-decreasing
when both region dimensions grow. -/
theorem C5_font_size_monotone (text : List Char) (font : FontVec)
    (W W' H H' : ℕ) (mfs : Option ℕ) (lsp : ℚ)
    (hW : W ≤ W') (hH : H ≤ H') :
    (prepare_textarea text font W H mfs lsp).font_size ≤
      (prepare_textarea text font W' H' mfs lsp).font_size := by
  obtain ⟨S, hS⟩ : ∃ S : ℕ,
      S = Option.elim mfs H fun m => min m H := ⟨_, rfl⟩
  obtain ⟨S', hS'⟩ : ∃ S' : ℕ,
      S' = Option.elim mfs H' fun m => min m H' := ⟨_, rfl⟩
  have h1 := prepare_textarea_spec text font W H mfs lsp S hS
  have h2 := prepare_textarea_spec text font W' H' mfs lsp S' hS'
  have hSS' : S ≤ S' := by
    rcases mfs with _ | m
    · have a1 : S = H := hS
      have a2 : S' = H' := hS'
      omega
    · have a1 : S = min m H := hS
      have a2 : S' = min m H' := hS'
      omega
  by_cases hex : ∃ s : ℕ, 1 ≤ s ∧ s ≤ S ∧ fit_feasible text font W H lsp s
  · obtain ⟨hle, hfeas, _, _, _, _⟩ := h1.2.1 hex
    have hfs1 : 1 ≤ (prepare_textarea text font W H mfs lsp).font_size := h1.1
    have hfeas' := fit_feasible_region_mono text font lsp hW hH _ hfeas
    have hleS' : (prepare_textarea text font W H mfs lsp).font_size ≤ S' :=
      le_trans hle hSS'
    have hex' : ∃ s : ℕ, 1 ≤ s ∧ s ≤ S' ∧
        fit_feasible text font W' H' lsp s :=
      ⟨_, hfs1, hleS', hfeas'⟩
    exact (h2.2.1 hex').2.2.1 _ hfs1 hleS' hfeas'
  · have hall : ∀ s : ℕ, 1 ≤ s → s ≤ S →
        ¬fit_feasible text font W H lsp s :=
      fun s a b c => hex ⟨s, a, b, c⟩
    rw [h1.2.2 hall]
    exact h2.1

/-- **C5 witness.**  Growing the region from 5×5 to 10×10 does not shrink
the fitted font size. -/
theorem C5_witness :
    (prepare_textarea ['a'] testFont 5 5 none 0).font_size ≤
      (prepare_textarea ['a'] testFont 10 10 none 0).font_size :=
  C5_font_size_monotone ['a'] testFont 5 10 5 10 none 0 (by norm_num)
    (by norm_num)

end Imagebox
